import Mathlib

/-!
Verification development for the terraprism repository: a shallow embedding of
the plan parser, the line diff engine, the userdata content decoder and the
interactive viewer state machine, together with theorems settling the frozen
claims about them.

Strings that the Go code manipulates byte/rune-wise are modelled as Lean
String/List Char; Go byte slices are modelled as List Nat (each element a
byte value).  Go maps with bool values are modelled as association lists with
unique keys.  Terraform plan totals are modelled as Nat (the Go code stores
them in int via Sscanf on a digit capture).
-/

namespace Terraprism

/-! ## Diff engine (internal/tui/diff.go) -/

/-- DiffOp represents the type of a diff operation (diff.go). -/
inductive DiffOp where
  | equal
  | insert
  | delete
  | separator
deriving DecidableEq, Repr

/-- DiffLine pairs an operation with its text content (diff.go). -/
structure DiffLine where
  op : DiffOp
  text : String
deriving DecidableEq, Repr

def maxLCSLines : Nat := 800

/-- The LCS-table value table[i][j] of lcs (diff.go), expressed on the
reversed prefixes: lcsLenRev (reverse (take i old)) (reverse (take j new))
equals table[i][j].  The tie in the max is broken exactly as in the source
(table[i-1][j] preferred when greater or equal). -/
def lcsLenRev : List String → List String → Nat
  | [], _ => 0
  | _ :: _, [] => 0
  | a :: ro, b :: rn =>
    if a = b then lcsLenRev ro rn + 1
    else if lcsLenRev ro (b :: rn) ≥ lcsLenRev (a :: ro) rn then lcsLenRev ro (b :: rn)
    else lcsLenRev (a :: ro) rn
termination_by ro rn => ro.length + rn.length
decreasing_by all_goals simp_arith

/-- The backtracking loop of lcs (diff.go), run on the reversed inputs and
producing the diff entries in the order the Go loop appends them (i.e. the
reverse of the final output). -/
def backRev : List String → List String → List DiffLine
  | [], [] => []
  | [], b :: rn => ⟨DiffOp.insert, b⟩ :: backRev [] rn
  | a :: ro, [] => ⟨DiffOp.delete, a⟩ :: backRev ro []
  | a :: ro, b :: rn =>
    if a = b then ⟨DiffOp.equal, a⟩ :: backRev ro rn
    else if lcsLenRev (a :: ro) rn ≥ lcsLenRev ro (b :: rn) then
      ⟨DiffOp.insert, b⟩ :: backRev (a :: ro) rn
    else ⟨DiffOp.delete, a⟩ :: backRev ro (b :: rn)
termination_by ro rn => ro.length + rn.length
decreasing_by all_goals simp_arith

/-- lcs (diff.go): DP table plus backtrack from (m,n), result reversed at the
end. -/
def lcs (oldLines newLines : List String) : List DiffLine :=
  (backRev oldLines.reverse newLines.reverse).reverse

/-- The prefix-measuring loop of computeDiffLargeInput (diff.go): number of
leading positions where both inputs agree (it stops at min length). -/
def cpLen : List String → List String → Nat
  | a :: xs, b :: ys => if a = b then cpLen xs ys + 1 else 0
  | _, _ => 0

/-- The suffix-measuring loop of computeDiffLargeInput (diff.go), run on the
reversed inputs: counts matching positions from the end, stopping at the cap
limit-prefixLen. -/
def suffLen : Nat → List String → List String → Nat
  | cap + 1, a :: ro, b :: rn => if a = b then suffLen cap ro rn + 1 else 0
  | _, _, _ => 0

/-- computeDiffLargeInput (diff.go): strip common prefix/suffix lines and only
diff the changed middle portion. -/
def computeDiffLargeInput (oldLines newLines : List String) : List DiffLine :=
  let m := oldLines.length
  let n := newLines.length
  let limit := min m n
  let p := cpLen oldLines newLines
  let s := suffLen (limit - p) oldLines.reverse newLines.reverse
  let oldCore := (oldLines.drop p).take (m - s - p)
  let newCore := (newLines.drop p).take (n - s - p)
  (oldLines.take p).map (fun t => ⟨DiffOp.equal, t⟩) ++
    (if oldCore.length + newCore.length ≤ maxLCSLines then lcs oldCore newCore
     else oldCore.map (fun t => ⟨DiffOp.delete, t⟩) ++
       newCore.map (fun t => ⟨DiffOp.insert, t⟩)) ++
    (oldLines.drop (m - s)).map (fun t => ⟨DiffOp.equal, t⟩)

/-- ComputeDiff (diff.go). -/
def ComputeDiff (oldLines newLines : List String) : List DiffLine :=
  if oldLines.length + newLines.length > maxLCSLines then
    computeDiffLargeInput oldLines newLines
  else lcs oldLines newLines

/-- The keep-marking of ContextDiff (diff.go): position k is kept iff some
non-equal entry lies within contextSize of it (the Go code marks the clamped
window [i-contextSize, i+contextSize] around every change). -/
def keepIdx (diff : List DiffLine) (cs k : Nat) : Bool :=
  (List.range diff.length).any fun i =>
    match diff.get? i with
    | some d => decide (d.op ≠ DiffOp.equal) && decide (k ≤ i + cs) && decide (i ≤ k + cs)
    | none => false

/-- The collapsing loop of ContextDiff (diff.go): kept entries are emitted, a
maximal run of dropped entries becomes a single separator. -/
def collapseGaps : Bool → List (DiffLine × Bool) → List DiffLine
  | _, [] => []
  | inGap, (d, kb) :: rest =>
    if kb then
      (if inGap then [⟨DiffOp.separator, "@@"⟩] else []) ++ d :: collapseGaps false rest
    else collapseGaps true rest

/-- ContextDiff (diff.go).  A negative contextSize defaults to 3; an all-equal
diff yields the empty sentinel (Go nil). -/
def ContextDiff (diff : List DiffLine) (contextSize : Int) : List DiffLine :=
  let cs : Nat := if contextSize < 0 then 3 else contextSize.toNat
  if diff.all (fun d => d.op == DiffOp.equal) then []
  else collapseGaps false (diff.enum.map (fun p => (p.2, keepIdx diff cs p.1)))

/-- Texts of the equal and delete entries of a diff, in order: the
reconstruction of the old input. -/
def oldTexts (d : List DiffLine) : List String :=
  d.filterMap fun e =>
    if e.op = DiffOp.equal ∨ e.op = DiffOp.delete then some e.text else none

/-- Texts of the equal and insert entries of a diff, in order: the
reconstruction of the new input. -/
def newTexts (d : List DiffLine) : List String :=
  d.filterMap fun e =>
    if e.op = DiffOp.equal ∨ e.op = DiffOp.insert then some e.text else none

theorem oldTexts_nil : oldTexts [] = [] := rfl

theorem oldTexts_cons (e : DiffLine) (d : List DiffLine) :
    oldTexts (e :: d) =
      if e.op = DiffOp.equal ∨ e.op = DiffOp.delete then e.text :: oldTexts d
      else oldTexts d := by
  by_cases h : e.op = DiffOp.equal ∨ e.op = DiffOp.delete <;>
    simp [oldTexts, List.filterMap_cons, h]

theorem newTexts_cons (e : DiffLine) (d : List DiffLine) :
    newTexts (e :: d) =
      if e.op = DiffOp.equal ∨ e.op = DiffOp.insert then e.text :: newTexts d
      else newTexts d := by
  by_cases h : e.op = DiffOp.equal ∨ e.op = DiffOp.insert <;>
    simp [newTexts, List.filterMap_cons, h]

theorem oldTexts_append (d1 d2 : List DiffLine) :
    oldTexts (d1 ++ d2) = oldTexts d1 ++ oldTexts d2 :=
  List.filterMap_append d1 d2 _

theorem newTexts_append (d1 d2 : List DiffLine) :
    newTexts (d1 ++ d2) = newTexts d1 ++ newTexts d2 :=
  List.filterMap_append d1 d2 _

theorem oldTexts_reverse (d : List DiffLine) :
    oldTexts d.reverse = (oldTexts d).reverse :=
  List.filterMap_reverse _ d

theorem newTexts_reverse (d : List DiffLine) :
    newTexts d.reverse = (newTexts d).reverse :=
  List.filterMap_reverse _ d

theorem oldTexts_map_equal (xs : List String) :
    oldTexts (xs.map (fun t => ⟨DiffOp.equal, t⟩)) = xs := by
  induction xs with
  | nil => rfl
  | cons a l ih => simp [oldTexts_cons, ih]

theorem oldTexts_map_delete (xs : List String) :
    oldTexts (xs.map (fun t => ⟨DiffOp.delete, t⟩)) = xs := by
  induction xs with
  | nil => rfl
  | cons a l ih => simp [oldTexts_cons, ih]

theorem oldTexts_map_insert (xs : List String) :
    oldTexts (xs.map (fun t => ⟨DiffOp.insert, t⟩)) = [] := by
  induction xs with
  | nil => rfl
  | cons a l ih => simp [oldTexts_cons, ih]

theorem newTexts_map_equal (xs : List String) :
    newTexts (xs.map (fun t => ⟨DiffOp.equal, t⟩)) = xs := by
  induction xs with
  | nil => rfl
  | cons a l ih => simp [newTexts_cons, ih]

theorem newTexts_map_insert (xs : List String) :
    newTexts (xs.map (fun t => ⟨DiffOp.insert, t⟩)) = xs := by
  induction xs with
  | nil => rfl
  | cons a l ih => simp [newTexts_cons, ih]

theorem newTexts_map_delete (xs : List String) :
    newTexts (xs.map (fun t => ⟨DiffOp.delete, t⟩)) = [] := by
  induction xs with
  | nil => rfl
  | cons a l ih => simp [newTexts_cons, ih]

/-- The backtracking loop reconstructs both inputs: equal+delete texts give
the (reversed) old input, equal+insert texts give the (reversed) new input. -/
theorem backRev_texts (ro rn : List String) :
    oldTexts (backRev ro rn) = ro ∧ newTexts (backRev ro rn) = rn := by
  induction ro, rn using backRev.induct with
  | case1 => simp [backRev, oldTexts, newTexts]
  | case2 b rn ih => simp [backRev, oldTexts_cons, newTexts_cons, ih]
  | case3 a ro ih => simp [backRev, oldTexts_cons, newTexts_cons, ih]
  | case4 ro b rn ih =>
    simp [backRev, oldTexts_cons, newTexts_cons, ih]
  | case5 a ro b rn hab hge ih =>
    simp [backRev, hab, hge, oldTexts_cons, newTexts_cons, ih]
  | case6 a ro b rn hab hge ih =>
    simp [backRev, hab, hge, oldTexts_cons, newTexts_cons, ih]

theorem lcs_oldTexts (o n : List String) : oldTexts (lcs o n) = o := by
  have h := (backRev_texts o.reverse n.reverse).1
  simp [lcs, oldTexts_reverse, h]

theorem lcs_newTexts (o n : List String) : newTexts (lcs o n) = n := by
  have h := (backRev_texts o.reverse n.reverse).2
  simp [lcs, newTexts_reverse, h]

theorem backRev_self (x : List String) :
    backRev x x = x.map (fun t => ⟨DiffOp.equal, t⟩) := by
  induction x with
  | nil => simp [backRev]
  | cons a l ih => simp [backRev, ih]

theorem lcs_self (x : List String) :
    lcs x x = x.map (fun t => ⟨DiffOp.equal, t⟩) := by
  simp [lcs, backRev_self]

theorem cpLen_self (x : List String) : cpLen x x = x.length := by
  induction x with
  | nil => rfl
  | cons a l ih => simp [cpLen, ih]

theorem cpLen_le_left (o n : List String) : cpLen o n ≤ o.length := by
  induction o generalizing n with
  | nil => cases n <;> simp [cpLen]
  | cons a o ih =>
    cases n with
    | nil => simp [cpLen]
    | cons b n =>
      by_cases h : a = b <;> simp [cpLen, h]
      exact ih n

theorem cpLen_le_right (o n : List String) : cpLen o n ≤ n.length := by
  induction o generalizing n with
  | nil => cases n <;> simp [cpLen]
  | cons a o ih =>
    cases n with
    | nil => simp [cpLen]
    | cons b n =>
      by_cases h : a = b <;> simp [cpLen, h]
      exact ih n

theorem cpLen_take (o n : List String) :
    o.take (cpLen o n) = n.take (cpLen o n) := by
  induction o generalizing n with
  | nil => cases n <;> simp [cpLen]
  | cons a o ih =>
    cases n with
    | nil => simp [cpLen]
    | cons b n =>
      by_cases h : a = b <;> simp [cpLen, h]
      exact ih n

theorem suffLen_le_cap (cap : Nat) (ro rn : List String) :
    suffLen cap ro rn ≤ cap := by
  induction cap generalizing ro rn with
  | zero => simp [suffLen]
  | succ c ih =>
    cases ro with
    | nil => simp [suffLen]
    | cons a ro =>
      cases rn with
      | nil => simp [suffLen]
      | cons b rn =>
        by_cases h : a = b <;> simp [suffLen, h]
        exact ih ro rn

theorem suffLen_eq_min (cap : Nat) (ro rn : List String) :
    suffLen cap ro rn = min cap (cpLen ro rn) := by
  induction cap generalizing ro rn with
  | zero => simp [suffLen]
  | succ c ih =>
    cases ro with
    | nil => simp [suffLen, cpLen]
    | cons a ro =>
      cases rn with
      | nil => simp [suffLen, cpLen]
      | cons b rn =>
        by_cases h : a = b <;> simp [suffLen, cpLen, h, ih]
        omega

theorem suffLen_take (cap : Nat) (ro rn : List String) :
    ro.take (suffLen cap ro rn) = rn.take (suffLen cap ro rn) := by
  induction cap generalizing ro rn with
  | zero => simp [suffLen]
  | succ c ih =>
    cases ro with
    | nil => simp [suffLen]
    | cons a ro =>
      cases rn with
      | nil => simp [suffLen]
      | cons b rn =>
        by_cases h : a = b <;> simp [suffLen, h]
        exact ih ro rn

/-- If the reversed lists agree on their first s positions, the original
lists share their last s positions. -/
theorem drop_eq_of_revtake (o n : List String) (s : Nat)
    (h : o.reverse.take s = n.reverse.take s)
    (h1 : s ≤ o.length) (h2 : s ≤ n.length) :
    o.drop (o.length - s) = n.drop (n.length - s) := by
  have ho : (o.drop (o.length - s)).reverse = o.reverse.take s := by
    rw [List.reverse_drop]
    congr 1
    omega
  have hn : (n.drop (n.length - s)).reverse = n.reverse.take s := by
    rw [List.reverse_drop]
    congr 1
    omega
  have := ho.trans (h.trans hn.symm)
  have := congrArg List.reverse this
  simpa using this

/-! ### Claims C6, C10, C5 -/

theorem computeDiff_self (x : List String) :
    ComputeDiff x x = x.map (fun t => ⟨DiffOp.equal, t⟩) := by
  by_cases h : x.length + x.length > maxLCSLines
  · have hp : cpLen x x = x.length := cpLen_self x
    simp only [ComputeDiff, if_pos h, computeDiffLargeInput, hp]
    simp [suffLen, lcs, backRev]
  · simp [ComputeDiff, h, lcs_self]

/-- C6: for every line list x, ComputeDiff x x consists solely of equal
entries whose texts are exactly x in order; and ContextDiff of any diff with
no non-equal entry, at any context size, is the empty sentinel. -/
theorem claim_C6 :
    (∀ x : List String, ComputeDiff x x = x.map (fun t => ⟨DiffOp.equal, t⟩)) ∧
    (∀ (d : List DiffLine) (c : Int),
      (∀ e ∈ d, e.op = DiffOp.equal) → ContextDiff d c = []) := by
  refine ⟨computeDiff_self, ?_⟩
  intro d c h
  have hall : d.all (fun e => e.op == DiffOp.equal) = true := by
    rw [List.all_eq_true]
    intro e he
    simpa using h e he
  simp [ContextDiff, hall]

/-- Witness for C6: the hypothesis of the ContextDiff half discharged at a
concrete all-equal diff. -/
theorem claim_C6_witness :
    ContextDiff [⟨DiffOp.equal, "a"⟩, ⟨DiffOp.equal, "b"⟩] 1 = [] :=
  claim_C6.2 [⟨DiffOp.equal, "a"⟩, ⟨DiffOp.equal, "b"⟩] 1 (by decide)

theorem cpLen_min_le (o n : List String) : cpLen o n ≤ min o.length n.length :=
  le_min (cpLen_le_left o n) (cpLen_le_right o n)

theorem suffLen_bounds (o n : List String) :
    suffLen (min o.length n.length - cpLen o n) o.reverse n.reverse
      ≤ min o.length n.length - cpLen o n :=
  suffLen_le_cap _ _ _

/-- Splitting of the old input induced by the prefix/suffix trim of
computeDiffLargeInput. -/
theorem take_core_drop (o : List String) (p s : Nat)
    (hps : p + s ≤ o.length) :
    o.take p ++ (o.drop p).take (o.length - s - p) ++ o.drop (o.length - s)
      = o := by
  have h1 : (o.drop p).drop (o.length - s - p) = o.drop (o.length - s) := by
    rw [List.drop_drop]
    congr 1
    omega
  conv_rhs => rw [← List.take_append_drop p o]
  rw [List.append_assoc, ← h1, List.take_append_drop]

/-- The suffix kept by computeDiffLargeInput is shared between the two
inputs. -/
theorem suffix_shared (o n : List String) :
    o.drop (o.length - suffLen (min o.length n.length - cpLen o n)
        o.reverse n.reverse)
      = n.drop (n.length - suffLen (min o.length n.length - cpLen o n)
        o.reverse n.reverse) := by
  set s := suffLen (min o.length n.length - cpLen o n) o.reverse n.reverse
    with hs
  have hcap : s ≤ min o.length n.length - cpLen o n := suffLen_le_cap _ _ _
  have h1 : s ≤ o.length := by
    have := cpLen_min_le o n
    omega
  have h2 : s ≤ n.length := by
    have := cpLen_min_le o n
    omega
  have htake : o.reverse.take s = n.reverse.take s := by
    rw [hs]
    exact suffLen_take _ _ _
  exact drop_eq_of_revtake o n s htake h1 h2

/-- C10: ComputeDiff loses and duplicates nothing — the equal+delete texts
reproduce the old input and the equal+insert texts reproduce the new input,
on both the exact LCS path and the large-input path. -/
theorem claim_C10 (o n : List String) :
    oldTexts (ComputeDiff o n) = o ∧ newTexts (ComputeDiff o n) = n := by
  by_cases h : o.length + n.length > maxLCSLines
  · simp only [ComputeDiff, if_pos h, computeDiffLargeInput]
    set p := cpLen o n with hp
    set s := suffLen (min o.length n.length - p) o.reverse n.reverse with hs
    have hple : p ≤ min o.length n.length := cpLen_min_le o n
    have hsle : s ≤ min o.length n.length - p := suffLen_le_cap _ _ _
    have hpso : p + s ≤ o.length := by omega
    have hpsn : p + s ≤ n.length := by omega
    have hpre : o.take p = n.take p := cpLen_take o n
    have hsuf : o.drop (o.length - s) = n.drop (n.length - s) :=
      suffix_shared o n
    constructor
    · rw [oldTexts_append, oldTexts_append, oldTexts_map_equal,
        oldTexts_map_equal]
      have hmid :
          oldTexts
            (if ((o.drop p).take (o.length - s - p)).length +
                ((n.drop p).take (n.length - s - p)).length ≤ maxLCSLines then
              lcs ((o.drop p).take (o.length - s - p))
                ((n.drop p).take (n.length - s - p))
            else ((o.drop p).take (o.length - s - p)).map
                (fun t => ⟨DiffOp.delete, t⟩) ++
              ((n.drop p).take (n.length - s - p)).map
                (fun t => ⟨DiffOp.insert, t⟩))
            = (o.drop p).take (o.length - s - p) := by
        split
        · exact lcs_oldTexts _ _
        · rw [oldTexts_append, oldTexts_map_delete, oldTexts_map_insert,
            List.append_nil]
      rw [hmid]
      exact take_core_drop o p s hpso
    · rw [newTexts_append, newTexts_append, newTexts_map_equal,
        newTexts_map_equal]
      have hmid :
          newTexts
            (if ((o.drop p).take (o.length - s - p)).length +
                ((n.drop p).take (n.length - s - p)).length ≤ maxLCSLines then
              lcs ((o.drop p).take (o.length - s - p))
                ((n.drop p).take (n.length - s - p))
            else ((o.drop p).take (o.length - s - p)).map
                (fun t => ⟨DiffOp.delete, t⟩) ++
              ((n.drop p).take (n.length - s - p)).map
                (fun t => ⟨DiffOp.insert, t⟩))
            = (n.drop p).take (n.length - s - p) := by
        split
        · exact lcs_newTexts _ _
        · rw [newTexts_append, newTexts_map_delete, newTexts_map_insert,
            List.nil_append]
      rw [hmid, hpre, hsuf]
      exact take_core_drop n p s hpsn
  · simp only [ComputeDiff, if_neg h]
    exact ⟨lcs_oldTexts o n, lcs_newTexts o n⟩

theorem cpLen_ge (o n : List String) (p : Nat)
    (hpre : o.take p = n.take p) (hple : p ≤ min o.length n.length) :
    p ≤ cpLen o n := by
  induction p generalizing o n with
  | zero => exact Nat.zero_le _
  | succ q ih =>
    cases o with
    | nil => simp at hple
    | cons a o2 =>
      cases n with
      | nil => simp at hple
      | cons b n2 =>
        simp only [List.take_succ_cons, List.cons.injEq] at hpre
        obtain ⟨rfl, h2⟩ := hpre
        have hle2 : q ≤ min o2.length n2.length := by
          simp at hple
          omega
        simp only [cpLen, if_pos rfl]
        exact Nat.succ_le_succ (ih o2 n2 h2 hle2)

theorem cpLen_le_of_get (o n : List String) (p : Nat)
    (h : o[p]? ≠ n[p]?) : cpLen o n ≤ p := by
  induction o generalizing n p with
  | nil => cases n <;> simp [cpLen]
  | cons a o2 ih =>
    cases n with
    | nil => simp [cpLen]
    | cons b n2 =>
      by_cases hab : a = b
      · subst hab
        cases p with
        | zero => simp at h
        | succ q =>
          simp only [List.getElem?_cons_succ] at h
          simp only [cpLen, if_pos rfl]
          exact Nat.succ_le_succ (ih n2 q h)
      · simp [cpLen, hab]

/-- A position count is the common-prefix length computed by the code iff it
is within bounds, the two takes agree, and it cannot be extended (mismatch at
p, or p is already the shorter length). -/
theorem cpLen_unique (o n : List String) (p : Nat)
    (hple : p ≤ min o.length n.length) (hpre : o.take p = n.take p)
    (hmax : o[p]? ≠ n[p]? ∨ p = min o.length n.length) :
    cpLen o n = p := by
  rcases hmax with h | h
  · exact le_antisymm (cpLen_le_of_get o n p h) (cpLen_ge o n p hpre hple)
  · have h1 := cpLen_min_le o n
    have h2 := cpLen_ge o n p hpre hple
    omega

theorem cpLen_take_take (x y : List String) (a b : Nat) :
    cpLen (x.take a) (y.take b) = min (min a b) (cpLen x y) := by
  induction x generalizing y a b with
  | nil => simp [cpLen]
  | cons c x2 ih =>
    cases y with
    | nil => simp [cpLen]
    | cons d y2 =>
      cases a with
      | zero => simp [cpLen]
      | succ a2 =>
        cases b with
        | zero => simp [cpLen]
        | succ b2 =>
          by_cases hcd : c = d
          · simp only [List.take_succ_cons, cpLen, if_pos hcd, ih]
            omega
          · simp [cpLen, hcd]

/-- The suffix count of computeDiffLargeInput equals the maximal common
prefix of the reversed post-prefix remainders: the cap limit-prefixLen never
truncates it. -/
theorem suffLen_remainders (o n : List String) :
    suffLen (min o.length n.length - cpLen o n) o.reverse n.reverse
      = cpLen ((o.drop (cpLen o n)).reverse) ((n.drop (cpLen o n)).reverse) := by
  have h := cpLen_min_le o n
  rw [suffLen_eq_min, List.reverse_drop, List.reverse_drop, cpLen_take_take]
  have hmm : min (o.length - cpLen o n) (n.length - cpLen o n)
      = min o.length n.length - cpLen o n := by omega
  rw [hmm]

theorem drop_through (o : List String) (p s : Nat) (h : p + s ≤ o.length) :
    o.drop (o.length - s) = (o.drop p).drop (o.length - p - s) := by
  rw [List.drop_drop]
  congr 1
  omega

/-- C5: on inputs whose combined length exceeds the 800-line threshold,
ComputeDiff is exactly: equal entries for the maximal common prefix, then
the LCS diff of the two remaining cores when their combined length is within
the threshold and an all-delete-then-all-insert block otherwise, then equal
entries for the (maximal, after prefix removal) common suffix — which is
shared between the two inputs.  p is characterized as the maximal common
prefix length and s as the maximal common suffix length of the remainders. -/
theorem claim_C5 (o n : List String) (p s : Nat)
    (hbig : o.length + n.length > maxLCSLines)
    (hple : p ≤ min o.length n.length)
    (hpre : o.take p = n.take p)
    (hpmax : o[p]? ≠ n[p]? ∨ p = min o.length n.length)
    (hsle : s ≤ min (o.length - p) (n.length - p))
    (hsuf : (o.drop p).reverse.take s = (n.drop p).reverse.take s)
    (hsmax : ((o.drop p).reverse)[s]? ≠ ((n.drop p).reverse)[s]? ∨
      s = min (o.length - p) (n.length - p)) :
    ComputeDiff o n =
      (o.take p).map (fun t => ⟨DiffOp.equal, t⟩) ++
      (if (o.length - s - p) + (n.length - s - p) ≤ maxLCSLines then
        lcs ((o.drop p).take (o.length - s - p))
          ((n.drop p).take (n.length - s - p))
      else ((o.drop p).take (o.length - s - p)).map
          (fun t => ⟨DiffOp.delete, t⟩) ++
        ((n.drop p).take (n.length - s - p)).map
          (fun t => ⟨DiffOp.insert, t⟩)) ++
      (n.drop (n.length - s)).map (fun t => ⟨DiffOp.equal, t⟩) := by
  have hp : cpLen o n = p := cpLen_unique o n p hple hpre hpmax
  have hs : suffLen (min o.length n.length - cpLen o n) o.reverse n.reverse
      = s := by
    rw [suffLen_remainders, hp]
    apply cpLen_unique
    · simpa using hsle
    · exact hsuf
    · simpa using hsmax
  have hsuffix : o.drop (o.length - s) = n.drop (n.length - s) := by
    have h1 : p + s ≤ o.length := by omega
    have h2 : p + s ≤ n.length := by omega
    rw [drop_through o p s h1, drop_through n p s h2]
    have := drop_eq_of_revtake (o.drop p) (n.drop p) s hsuf
      (by simp; omega) (by simp; omega)
    simpa using this
  have hcond : ((o.drop p).take (o.length - s - p)).length +
      ((n.drop p).take (n.length - s - p)).length
      = (o.length - s - p) + (n.length - s - p) := by
    simp only [List.length_take, List.length_drop]
    omega
  rw [hp] at hs
  simp only [ComputeDiff, if_pos hbig, computeDiffLargeInput, hp, hs, hcond,
    hsuffix]

def c5OldSample : List String := List.replicate 400 "a" ++ ["x"]

def c5NewSample : List String := List.replicate 400 "a"

set_option maxRecDepth 40000 in
/-- Witness for C5: the hypotheses discharged at a concrete 801-line input
pair sharing a 400-line prefix. -/
theorem claim_C5_witness :
    ComputeDiff c5OldSample c5NewSample =
      (c5OldSample.take 400).map (fun t => ⟨DiffOp.equal, t⟩) ++
      (if (c5OldSample.length - 0 - 400) + (c5NewSample.length - 0 - 400)
          ≤ maxLCSLines then
        lcs ((c5OldSample.drop 400).take (c5OldSample.length - 0 - 400))
          ((c5NewSample.drop 400).take (c5NewSample.length - 0 - 400))
      else ((c5OldSample.drop 400).take (c5OldSample.length - 0 - 400)).map
          (fun t => ⟨DiffOp.delete, t⟩) ++
        ((c5NewSample.drop 400).take (c5NewSample.length - 0 - 400)).map
          (fun t => ⟨DiffOp.insert, t⟩)) ++
      (c5NewSample.drop (c5NewSample.length - 0)).map
        (fun t => ⟨DiffOp.equal, t⟩) :=
  claim_C5 c5OldSample c5NewSample 400 0 (by decide) (by decide) (by decide)
    (by decide) (by decide) (by decide) (by decide)

/-! ## Plan parser (internal/parser, Go package parser)

Lines are modelled as List Char.  Go regexp \s is the RE2 class [\t\n\f\r ];
strings.TrimSpace trims unicode.IsSpace runes, whose ASCII part also includes
\v.  Unicode-specific behavior (non-ASCII space runes, non-ASCII lower-casing
in strings.ToLower) is outside the model; no claim depends on it. -/

/-- The RE2 whitespace class \s. -/
def goWS (c : Char) : Bool :=
  c == ' ' || c == '\t' || c == '\n' || c == '\x0c' || c == '\r'

/-- ASCII part of unicode.IsSpace, as used by strings.TrimSpace and
strings.Fields. -/
def goSpace (c : Char) : Bool :=
  c == ' ' || c == '\t' || c == '\n' || c == '\x0b' || c == '\x0c' || c == '\r'

/-- Characters of a string literal. -/
def strL (s : String) : List Char := s.toList

/-- strings.HasPrefix on char lists (pattern second). -/
def startsWithL : List Char → List Char → Bool
  | _, [] => true
  | [], _ :: _ => false
  | c :: l, p :: ps => c == p && startsWithL l ps

/-- strings.Contains on char lists (pattern second). -/
def containsL : List Char → List Char → Bool
  | [], pat => startsWithL [] pat
  | l@(_ :: t), pat => startsWithL l pat || containsL t pat

/-- strings.ToLower restricted to ASCII case mapping. -/
def toLowerL (l : List Char) : List Char := l.map Char.toLower

/-- strings.TrimSpace on char lists. -/
def trimSpaceL (l : List Char) : List Char :=
  ((l.dropWhile (fun c => goSpace c)).reverse.dropWhile
    (fun c => goSpace c)).reverse

/-- strings.Split on a single separator character (never returns an empty
list, like the Go function). -/
def splitOnCharL (sep : Char) : List Char → List (List Char)
  | [] => [[]]
  | c :: r =>
    if c == sep then [] :: splitOnCharL sep r
    else
      match splitOnCharL sep r with
      | h :: t => (c :: h) :: t
      | [] => [[c]]

/-- Action represents the type of change being made to a resource
(parser.go). -/
inductive Action where
  | create
  | destroy
  | update
  | replace
  | read
  | noop
  | createDelete
  | deleteCreate
deriving DecidableEq, Repr

/-- Resource (parser.go).  Fields address/rtype/rname/action model the Go
Address/Type/Name/Action.  The RawLines and Attributes fields are
display-only accumulations not mentioned by any claim and are not modelled;
the omitted code never touches the loop control state or the fields kept
here. -/
structure Resource where
  address : List Char
  rtype : List Char
  rname : List Char
  action : Action
deriving DecidableEq, Repr

/-- Plan (parser.go).  The Summary and RawPlan display strings are not
modelled. -/
structure Plan where
  Resources : List Resource
  TotalAdd : Nat
  TotalChange : Nat
  TotalDestroy : Nat
deriving DecidableEq, Repr

/-- parseActionFromLine (parser.go): ordered substring checks on the
lowercased line. -/
def parseActionFromLine (line : List Char) : Action :=
  let lower := toLowerL line
  if containsL lower (strL "will be created") ||
      containsL lower (strL "has been created") then Action.create
  else if containsL lower (strL "will be destroyed") ||
      containsL lower (strL "must be destroyed") then Action.destroy
  else if containsL lower (strL "will be updated") ||
      containsL lower (strL "has been changed") then Action.update
  else if containsL lower (strL "must be replaced") ||
      containsL lower (strL "will be replaced") then Action.replace
  else if containsL lower (strL "will be read") then Action.read
  else if containsL lower (strL "is tainted") then Action.replace
  else if containsL lower (strL "destroyed and then created") ||
      containsL lower (strL "-/+") then Action.deleteCreate
  else if containsL lower (strL "created and then destroyed") ||
      containsL lower (strL "+/-") then Action.createDelete
  else Action.update

/-- The phrase alternation of the new-format resource header regexp. -/
def phraseAt (l : List Char) : Bool :=
  startsWithL l (strL "will be") || startsWithL l (strL "must be") ||
    startsWithL l (strL "has been") || startsWithL l (strL "is tainted")

/-- One-or-more \s characters followed by the phrase alternation. -/
def wsPlusPhrase : List Char → Bool
  | [] => false
  | c :: r => goWS c && (phraseAt r || wsPlusPhrase r)

/-- A non-empty capture (the lazy .+? of the header regexp, whose characters
cannot be a newline) followed by whitespace and the phrase. -/
def capThenPhrase : List Char → Bool
  | [] => false
  | c :: r => decide (c ≠ '\n') && (wsPlusPhrase r || capThenPhrase r)

/-- The part of the header regexp after the # marker: one-or-more
whitespace, a non-empty capture, whitespace, a phrase. -/
def hashTail : List Char → Bool
  | [] => false
  | c :: r => goWS c && (capThenPhrase r || hashTail r)

/-- Whether resourceRegex of parseNewFormat (parser.go) matches the line:
optional leading whitespace, a # marker, whitespace, a non-empty address
capture, whitespace, then one of the header phrases. -/
def isHeaderLine (line : List Char) : Bool :=
  match line.dropWhile (fun c => goWS c) with
  | '#' :: r => hashTail r
  | _ => false

/-- The address submatch of the header regexp: the shortest capture after
the greedily taken whitespace run that is followed by whitespace and a
phrase (RE2 preference order). -/
def capScan (acc : List Char) : List Char → List Char
  | [] => []
  | c :: r =>
    if c = '\n' then []
    else if wsPlusPhrase r then (c :: acc).reverse
    else capScan (c :: acc) r

/-- match[1] of resourceRegex, TrimSpace applied as in the source.  Only
meaningful on lines for which isHeaderLine holds. -/
def headerAddress (line : List Char) : List Char :=
  match line.dropWhile (fun c => goWS c) with
  | '#' :: r => trimSpaceL (capScan [] (r.dropWhile (fun c => goWS c)))
  | _ => []

/-- parseResourceAddress (parser.go): type and name are the last two
dot-separated segments of the address, when there are at least two. -/
def parseResourceAddress (addr : List Char) : List Char × List Char :=
  let parts := splitOnCharL '.' addr
  if parts.length ≥ 2 then
    ((parts.get? (parts.length - 2)).getD [], (parts.get? (parts.length - 1)).getD [])
  else ([], [])

/-- The resource started by a new-format header line. -/
def mkHeaderResource (line : List Char) : Resource :=
  let address := headerAddress line
  let tn := parseResourceAddress address
  { address := address, rtype := tn.1, rname := tn.2,
    action := parseActionFromLine line }

/-- Loop state of parseNewFormat: flushed resources, the in-progress
resource, and the block-tracking state. -/
structure NFState where
  acc : List Resource
  cur : Option Resource
  inBlock : Bool
  brace : Int
deriving Repr

def optListR : Option Resource → List Resource
  | some r => [r]
  | none => []

/-- strings.Count for a single-character substring. -/
def countCharL (c : Char) (l : List Char) : Nat :=
  (l.filter (fun x => x == c)).length

/-- One iteration of the parseNewFormat line loop (parser.go).  Attribute
extraction is omitted (display-only, see Resource). -/
def nfStep (st : NFState) (line : List Char) : NFState :=
  if isHeaderLine line then
    { acc := st.acc ++ optListR st.cur, cur := some (mkHeaderResource line),
      inBlock := true, brace := 0 }
  else if st.inBlock && st.cur.isSome then
    let brace := st.brace + (countCharL '{' line : Int) - (countCharL '}' line : Int)
    if brace ≤ 0 && trimSpaceL line = ['}'] then
      { st with brace := brace, inBlock := false }
    else { st with brace := brace }
  else st

/-- parseNewFormat (parser.go): fold the line loop and flush the last
resource. -/
def parseNewFormat (lines : List (List Char)) : List Resource :=
  let st := lines.foldl nfStep ⟨[], none, false, 0⟩
  st.acc ++ optListR st.cur

/-- Whether one of the old-format single-symbol resource regexps
(e.g. createRegex, destroyRegex, updateRegex) matches: the symbol, at least
one whitespace character, at least one further character. -/
def oldHeader1 (sym : Char) (l : List Char) : Bool :=
  match l with
  | c0 :: c1 :: _ :: _ => c0 == sym && goWS c1
  | _ => false

/-- Whether one of the three-symbol old-format resource regexps
(replaceRegex, replaceRegex2) matches. -/
def oldHeader3 (s0 s1 s2 : Char) (l : List Char) : Bool :=
  match l with
  | c0 :: c1 :: c2 :: c3 :: _ :: _ => c0 == s0 && c1 == s1 && c2 == s2 && goWS c3
  | _ => false

/-- match[1] of an old-format resource regexp after TrimSpace: the symbol
and the whitespace run are dropped (when the remainder is empty the regex
instead gives back one whitespace character to the capture, which trims to
the same result). -/
def oldAddr (symLen : Nat) (l : List Char) : List Char :=
  trimSpaceL ((l.drop symLen).dropWhile (fun c => goWS c))

def mkOldResource (addr : List Char) (act : Action) : Resource :=
  let tn := parseResourceAddress addr
  { address := addr, rtype := tn.1, rname := tn.2, action := act }

/-- One iteration of the parseOldFormat line loop (parser.go).  Attribute
extraction is omitted (display-only, see Resource). -/
def ofStep (st : List Resource × Option Resource) (line : List Char) :
    List Resource × Option Resource :=
  if trimSpaceL line = [] then st
  else if oldHeader1 '+' line && !containsL line (strL ":") then
    (st.1 ++ optListR st.2, some (mkOldResource (oldAddr 1 line) Action.create))
  else if oldHeader1 '-' line && !containsL line (strL ":") then
    (st.1 ++ optListR st.2, some (mkOldResource (oldAddr 1 line) Action.destroy))
  else if oldHeader1 '~' line && !containsL line (strL ":") then
    (st.1 ++ optListR st.2, some (mkOldResource (oldAddr 1 line) Action.update))
  else if oldHeader3 '-' '/' '+' line then
    (st.1 ++ optListR st.2, some (mkOldResource (oldAddr 3 line) Action.replace))
  else if oldHeader3 '+' '/' '-' line then
    (st.1 ++ optListR st.2, some (mkOldResource (oldAddr 3 line) Action.createDelete))
  else st

/-- parseOldFormat (parser.go). -/
def parseOldFormat (lines : List (List Char)) : List Resource :=
  let st := lines.foldl ofStep ([], none)
  st.1 ++ optListR st.2

/-- isNewFormat (parser.go). -/
def isNewFormat (lines : List (List Char)) : Bool :=
  lines.any fun line =>
    containsL line (strL "# ") &&
      (containsL line (strL " will be ") || containsL line (strL " must be ") ||
        containsL line (strL " has been ") || containsL line (strL " is tainted"))

/-- The \d character class. -/
def isDigitCh (c : Char) : Bool := '0' ≤ c && c ≤ '9'

/-- Numeric value of a digit capture (the model of Sscanf %d on the digit
submatch; overflow of the Go int is outside the model). -/
def digitsVal (l : List Char) : Nat :=
  l.foldl (fun a c => a * 10 + (c.toNat - 48)) 0

/-- Literal-part matching of the summary regexp. -/
def dropLit : List Char → List Char → Option (List Char)
  | [], l => some l
  | _ :: _, [] => none
  | p :: ps, c :: r => if c == p then dropLit ps r else none

/-- The \s*(\d+)\s* segment of the summary regexp: skip whitespace, take a
non-empty digit run as the capture, then skip whitespace. -/
def wsNum (l : List Char) : Option (Nat × List Char) :=
  let r := l.dropWhile (fun c => goWS c)
  let d := r.takeWhile (fun c => isDigitCh c)
  if d = [] then none
  else some (digitsVal d,
    (r.dropWhile (fun c => isDigitCh c)).dropWhile (fun c => goWS c))

/-- Whether summaryRegex of parseSummary (parser.go) matches at this
position, and the three captured numbers if so.  The regexp
Plan:\s*(\d+)\s*to add,\s*(\d+)\s*to change,\s*(\d+)\s*to destroy is
deterministic: every \s*, (\d+) and literal boundary is between disjoint
character classes. -/
def matchSummaryAt (l : List Char) : Option (Nat × Nat × Nat) :=
  (dropLit (strL "Plan:") l).bind fun r1 =>
    (wsNum r1).bind fun p1 =>
      (dropLit (strL "to add,") p1.2).bind fun r3 =>
        (wsNum r3).bind fun p2 =>
          (dropLit (strL "to change,") p2.2).bind fun r5 =>
            (wsNum r5).bind fun p3 =>
              (dropLit (strL "to destroy") p3.2).map fun _ =>
                (p1.1, p2.1, p3.1)

/-- FindStringSubmatch of summaryRegex on one line: leftmost match. -/
def summaryScan : List Char → Option (Nat × Nat × Nat)
  | [] => none
  | l@(_ :: t) => (matchSummaryAt l).orElse (fun _ => summaryScan t)

/-- parseSummary (parser.go): the captures of the first line the summary
regexp matches, if any. -/
def parseSummary (lines : List (List Char)) : Option (Nat × Nat × Nat) :=
  lines.findSome? summaryScan

/-- Parse (parser.go).  The second component is the Go error result, which
the source always returns as nil. -/
def Parse (input : List Char) : Plan × Option (List Char) :=
  let lines := splitOnCharL '\n' input
  let res := if isNewFormat lines then parseNewFormat lines
    else parseOldFormat lines
  let plan : Plan :=
    match parseSummary lines with
    | some (x, y, z) =>
      { Resources := res, TotalAdd := x, TotalChange := y, TotalDestroy := z }
    | none => { Resources := res, TotalAdd := 0, TotalChange := 0, TotalDestroy := 0 }
  (plan, none)

/-! ### Parser lemmas and claims C1, C2 -/

def flushNF (st : NFState) : List Resource := st.acc ++ optListR st.cur

theorem nfStep_nonheader (st : NFState) (line : List Char)
    (h : isHeaderLine line = false) :
    (nfStep st line).acc = st.acc ∧ (nfStep st line).cur = st.cur := by
  simp only [nfStep, h, Bool.false_eq_true, if_false]
  constructor <;> (split <;> first | rfl | (split <;> rfl))

theorem flushNF_nonheader (st : NFState) (line : List Char)
    (h : isHeaderLine line = false) :
    flushNF (nfStep st line) = flushNF st := by
  have := nfStep_nonheader st line h
  simp [flushNF, this.1, this.2]

theorem flushNF_header (st : NFState) (line : List Char)
    (h : isHeaderLine line = true) :
    flushNF (nfStep st line) = flushNF st ++ [mkHeaderResource line] := by
  simp [nfStep, h, flushNF, optListR]

/-- The fold of the new-format line loop emits exactly one resource per
header line, in order, whose action is parseActionFromLine of that header. -/
theorem nf_fold_actions (lines : List (List Char)) (st : NFState) :
    (flushNF (lines.foldl nfStep st)).map (fun r => r.action)
      = (flushNF st).map (fun r => r.action) ++
        (lines.filter (fun l => isHeaderLine l)).map parseActionFromLine := by
  induction lines generalizing st with
  | nil => simp
  | cons line rest ih =>
    by_cases h : isHeaderLine line = true
    · rw [List.foldl_cons, ih (nfStep st line), flushNF_header st line h]
      simp [List.filter_cons, h, mkHeaderResource]
    · have hf : isHeaderLine line = false := by simpa using h
      rw [List.foldl_cons, ih (nfStep st line), flushNF_nonheader st line hf]
      simp [List.filter_cons, hf]

theorem parseNewFormat_actions (lines : List (List Char)) :
    (parseNewFormat lines).map (fun r => r.action)
      = (lines.filter (fun l => isHeaderLine l)).map parseActionFromLine := by
  have h := nf_fold_actions lines ⟨[], none, false, 0⟩
  simpa [parseNewFormat, flushNF, optListR] using h

/-- findSome? returns the value produced at the first index whose element
maps to some, when all earlier elements map to none. -/
theorem findSome_first (f : List Char → Option (Nat × Nat × Nat))
    (l : List (List Char)) (i : Nat) (x : List Char) (v : Nat × Nat × Nat)
    (hx : l[i]? = some x) (hv : f x = some v)
    (hb : ∀ j, j < i → f ((l[j]?).getD []) = none) :
    l.findSome? f = some v := by
  induction l generalizing i with
  | nil => simp at hx
  | cons a t ih =>
    cases i with
    | zero =>
      simp only [List.getElem?_cons_zero, Option.some.injEq] at hx
      subst hx
      simp [List.findSome?_cons, hv]
    | succ k =>
      have ha : f a = none := by simpa using hb 0 (Nat.succ_pos k)
      rw [List.findSome?_cons]
      simp only [ha]
      exact ih k (by simpa using hx)
        (fun j hj => by simpa using hb (j + 1) (by omega))

theorem Parse_error_none (input : List Char) : (Parse input).2 = none := by
  rcases h : parseSummary (splitOnCharL '\n' input) with _ | ⟨x, y, z⟩ <;>
    simp [Parse, h]

theorem Parse_Resources (input : List Char) :
    (Parse input).1.Resources =
      (if isNewFormat (splitOnCharL '\n' input) then
        parseNewFormat (splitOnCharL '\n' input)
      else parseOldFormat (splitOnCharL '\n' input)) := by
  rcases h : parseSummary (splitOnCharL '\n' input) with _ | ⟨x, y, z⟩ <;>
    simp [Parse, h]

/-- C1: for a new-format input, Parse yields exactly one resource per
resource-header line, each carrying the action of the fixed header-phrase
mapping for its header line, and the totals X, Y, Z of the first line
matching the summary pattern. -/
theorem claim_C1 (input : List Char) (X Y Z : Nat) (i : Nat) (sline : List Char)
    (hnew : isNewFormat (splitOnCharL '\n' input) = true)
    (hsl : (splitOnCharL '\n' input)[i]? = some sline)
    (hsv : summaryScan sline = some (X, Y, Z))
    (hfirst : ∀ j, j < i →
      summaryScan (((splitOnCharL '\n' input)[j]?).getD []) = none) :
    (Parse input).1.Resources.length
        = ((splitOnCharL '\n' input).filter (fun l => isHeaderLine l)).length ∧
    (Parse input).1.Resources.map (fun r => r.action)
        = ((splitOnCharL '\n' input).filter (fun l => isHeaderLine l)).map
            parseActionFromLine ∧
    (Parse input).1.TotalAdd = X ∧ (Parse input).1.TotalChange = Y ∧
    (Parse input).1.TotalDestroy = Z := by
  have hsum : parseSummary (splitOnCharL '\n' input) = some (X, Y, Z) :=
    findSome_first summaryScan _ i sline (X, Y, Z) hsl hsv hfirst
  have hres : (Parse input).1.Resources
      = parseNewFormat (splitOnCharL '\n' input) := by
    rw [Parse_Resources, if_pos hnew]
  have hacts : (Parse input).1.Resources.map (fun r => r.action)
      = ((splitOnCharL '\n' input).filter (fun l => isHeaderLine l)).map
          parseActionFromLine := by
    rw [hres]
    exact parseNewFormat_actions _
  refine ⟨?_, hacts, ?_, ?_, ?_⟩
  · have := congrArg List.length hacts
    simpa using this
  all_goals simp [Parse, hsum]

/-- Witness for C1: a two-line new-format input with one creation header and
a summary line, evaluated concretely. -/
theorem claim_C1_witness :
    (Parse (strL "  # aws_instance.a will be created\nPlan: 1 to add, 2 to change, 3 to destroy.")).1.Resources.length = 1 ∧
    (Parse (strL "  # aws_instance.a will be created\nPlan: 1 to add, 2 to change, 3 to destroy.")).1.TotalAdd = 1 ∧
    (Parse (strL "  # aws_instance.a will be created\nPlan: 1 to add, 2 to change, 3 to destroy.")).1.TotalChange = 2 ∧
    (Parse (strL "  # aws_instance.a will be created\nPlan: 1 to add, 2 to change, 3 to destroy.")).1.TotalDestroy = 3 := by
  have h := claim_C1
    (strL "  # aws_instance.a will be created\nPlan: 1 to add, 2 to change, 3 to destroy.")
    1 2 3 1 (strL "Plan: 1 to add, 2 to change, 3 to destroy.")
    (by decide) (by decide) (by decide)
    (by decide)
  refine ⟨?_, h.2.2.1, h.2.2.2.1, h.2.2.2.2⟩
  rw [h.1]
  decide

/-- C2 fails on the code: the header-phrase mapping checks the destroy
phrases before the destroyed-and-then-created phrase, so a header line of
the claimed shape is mapped to destroy, not delete-create. -/
theorem claim_C2_counterexample :
    isHeaderLine (strL "  # aws_instance.x will be destroyed and then created") = true ∧
    parseActionFromLine
      (strL "  # aws_instance.x will be destroyed and then created")
      = Action.destroy ∧
    Action.destroy ≠ Action.deleteCreate := by decide

/-- C2 amended: a header line whose lowercased text contains the phrase
destroyed-and-then-created is mapped to delete-create only when it contains
none of the earlier-checked phrases; in particular the will-be-destroyed and
must-be-destroyed checks take precedence. -/
theorem claim_C2_amended (line : List Char)
    (h1 : containsL (toLowerL line) (strL "destroyed and then created") = true)
    (h2 : containsL (toLowerL line) (strL "will be created") = false)
    (h3 : containsL (toLowerL line) (strL "has been created") = false)
    (h4 : containsL (toLowerL line) (strL "will be destroyed") = false)
    (h5 : containsL (toLowerL line) (strL "must be destroyed") = false)
    (h6 : containsL (toLowerL line) (strL "will be updated") = false)
    (h7 : containsL (toLowerL line) (strL "has been changed") = false)
    (h8 : containsL (toLowerL line) (strL "must be replaced") = false)
    (h9 : containsL (toLowerL line) (strL "will be replaced") = false)
    (h10 : containsL (toLowerL line) (strL "will be read") = false)
    (h11 : containsL (toLowerL line) (strL "is tainted") = false) :
    parseActionFromLine line = Action.deleteCreate := by
  simp [parseActionFromLine, h1, h2, h3, h4, h5, h6, h7, h8, h9, h10, h11]

/-- Witness for C2 amended: a has-been-destroyed-and-then-created header
contains none of the earlier phrases and is mapped to delete-create. -/
theorem claim_C2_witness :
    parseActionFromLine (strL "  # db.main has been destroyed and then created")
      = Action.deleteCreate :=
  claim_C2_amended _ (by decide) (by decide) (by decide) (by decide)
    (by decide) (by decide) (by decide) (by decide) (by decide) (by decide)
    (by decide)

/-! ### Claim C8: totality, zero totals without a summary, and independence
of resource parsing from the summary line -/

/-- The canonical summary line carrying the digit captures d1, d2, d3. -/
def summaryLineOf (d1 d2 d3 : List Char) : List Char :=
  strL "Plan: " ++ d1 ++ strL " to add, " ++ d2 ++ strL " to change, " ++
    d3 ++ strL " to destroy"

theorem dropLit_self_append (pre rest : List Char) :
    dropLit pre (pre ++ rest) = some rest := by
  induction pre with
  | nil => rfl
  | cons p ps ih => simp [dropLit, ih]

theorem dropWhile_append_all (p : Char → Bool) (xs ys : List Char)
    (h : ∀ x ∈ xs, p x = true) :
    (xs ++ ys).dropWhile p = ys.dropWhile p := by
  induction xs with
  | nil => rfl
  | cons x xs ih =>
    have hx : p x = true := h x (by simp)
    simp only [List.cons_append, List.dropWhile_cons, hx, if_true]
    exact ih (fun y hy => h y (by simp [hy]))

theorem dropWhile_head_false (p : Char → Bool) (zs : List Char)
    (h : ∀ c, zs.head? = some c → p c = false) :
    zs.dropWhile p = zs := by
  cases zs with
  | nil => rfl
  | cons z zr => simp [List.dropWhile_cons, h z rfl]

theorem takeWhile_append_block (p : Char → Bool) (xs zs : List Char)
    (hxs : ∀ x ∈ xs, p x = true)
    (hz : ∀ c, zs.head? = some c → p c = false) :
    (xs ++ zs).takeWhile p = xs ∧ (xs ++ zs).dropWhile p = zs := by
  induction xs with
  | nil =>
    refine ⟨?_, dropWhile_head_false p zs hz⟩
    cases zs with
    | nil => rfl
    | cons z zr => simp [List.takeWhile_cons, hz z rfl]
  | cons x xs ih =>
    have hx : p x = true := hxs x (by simp)
    have := ih (fun y hy => hxs y (by simp [hy]))
    simp [List.takeWhile_cons, List.dropWhile_cons, hx, this.1, this.2]

theorem ws_not_digit (c : Char) (h : goWS c = true) : isDigitCh c = false := by
  have hc : c = ' ' ∨ c = '\t' ∨ c = '\n' ∨ c = '\x0c' ∨ c = '\r' := by
    simpa [goWS, or_assoc] using h
  rcases hc with rfl | rfl | rfl | rfl | rfl <;> decide

theorem digit_not_ws (c : Char) (h : isDigitCh c = true) : goWS c = false := by
  cases hw : goWS c
  · rfl
  · rw [ws_not_digit c hw] at h
    cases h

/-- Evaluation of the \s*(\d+)\s* segment on a whitespace run, a digit run
and a whitespace run followed by a rest that starts with neither. -/
theorem wsNum_spec (w1 d w2 rest : List Char)
    (hw1 : ∀ c ∈ w1, goWS c = true)
    (hd : d ≠ []) (hall : ∀ c ∈ d, isDigitCh c = true)
    (hw2 : ∀ c ∈ w2, goWS c = true)
    (hr : ∀ c, rest.head? = some c → (goWS c = false ∧ isDigitCh c = false)) :
    wsNum (w1 ++ d ++ w2 ++ rest) = some (digitsVal d, rest) := by
  have hdhead : ∀ c, (d ++ (w2 ++ rest)).head? = some c → goWS c = false := by
    intro c hc
    cases d with
    | nil => exact absurd rfl hd
    | cons a dt =>
      simp only [List.cons_append, List.head?_cons, Option.some.injEq] at hc
      subst hc
      exact digit_not_ws _ (hall _ (by simp))
  have hdig : ∀ c, (w2 ++ rest).head? = some c → isDigitCh c = false := by
    intro c hc
    cases w2 with
    | nil => exact (hr c hc).2
    | cons a wt =>
      simp only [List.cons_append, List.head?_cons, Option.some.injEq] at hc
      subst hc
      exact ws_not_digit _ (hw2 _ (by simp))
  have hblock := takeWhile_append_block (fun c => isDigitCh c) d (w2 ++ rest)
    hall hdig
  have hstep3 : (w2 ++ rest).dropWhile (fun c => goWS c) = rest := by
    rw [dropWhile_append_all _ w2 _ hw2]
    exact dropWhile_head_false _ rest (fun c hc => (hr c hc).1)
  simp only [wsNum, List.append_assoc]
  rw [dropWhile_append_all _ w1 _ hw1, dropWhile_head_false _ _ hdhead,
    hblock.1, hblock.2, hstep3, if_neg hd]

/-- The summary regexp matches the canonical summary line at position 0 and
captures its three digit runs. -/
theorem matchSummaryAt_canonical (d1 d2 d3 : List Char)
    (h1 : d1 ≠ []) (ha1 : ∀ c ∈ d1, isDigitCh c = true)
    (h2 : d2 ≠ []) (ha2 : ∀ c ∈ d2, isDigitCh c = true)
    (h3 : d3 ≠ []) (ha3 : ∀ c ∈ d3, isDigitCh c = true) :
    matchSummaryAt (summaryLineOf d1 d2 d3)
      = some (digitsVal d1, digitsVal d2, digitsVal d3) := by
  have eP : strL "Plan: " = strL "Plan:" ++ strL " " := by decide
  have eA : strL " to add, " = strL " " ++ (strL "to add," ++ strL " ") := by
    decide
  have eC : strL " to change, "
      = strL " " ++ (strL "to change," ++ strL " ") := by decide
  have eD : strL " to destroy" = strL " " ++ strL "to destroy" := by decide
  have hws : ∀ c ∈ strL " ", goWS c = true := by decide
  have hA : ∀ c, (strL "to add," ++
      (strL " " ++ d2 ++ strL " " ++ (strL "to change," ++
        (strL " " ++ d3 ++ strL " " ++ strL "to destroy")))).head? = some c →
      (goWS c = false ∧ isDigitCh c = false) := by
    intro c hc
    have : strL "to add," = 't' :: strL "o add," := by decide
    rw [this] at hc
    simp only [List.cons_append, List.head?_cons, Option.some.injEq] at hc
    subst hc
    exact ⟨by decide, by decide⟩
  have hC : ∀ c, (strL "to change," ++
      (strL " " ++ d3 ++ strL " " ++ strL "to destroy")).head? = some c →
      (goWS c = false ∧ isDigitCh c = false) := by
    intro c hc
    have : strL "to change," = 't' :: strL "o change," := by decide
    rw [this] at hc
    simp only [List.cons_append, List.head?_cons, Option.some.injEq] at hc
    subst hc
    exact ⟨by decide, by decide⟩
  have hD : ∀ c, (strL "to destroy").head? = some c →
      (goWS c = false ∧ isDigitCh c = false) := by
    intro c hc
    have : strL "to destroy" = 't' :: strL "o destroy" := by decide
    rw [this] at hc
    simp only [List.head?_cons, Option.some.injEq] at hc
    subst hc
    exact ⟨by decide, by decide⟩
  have hL : summaryLineOf d1 d2 d3
      = strL "Plan:" ++
        (strL " " ++ d1 ++ strL " " ++ (strL "to add," ++
          (strL " " ++ d2 ++ strL " " ++ (strL "to change," ++
            (strL " " ++ d3 ++ strL " " ++ strL "to destroy"))))) := by
    rw [summaryLineOf, eP, eA, eC, eD]
    simp [List.append_assoc]
  have hw1 := wsNum_spec (strL " ") d1 (strL " ") _ hws h1 ha1 hws hA
  have hw2 := wsNum_spec (strL " ") d2 (strL " ") _ hws h2 ha2 hws hC
  have hw3 := wsNum_spec (strL " ") d3 (strL " ") _ hws h3 ha3 hws hD
  have hD2 : dropLit (strL "to destroy") (strL "to destroy") = some [] := by
    have := dropLit_self_append (strL "to destroy") []
    simpa using this
  rw [hL]
  simp only [matchSummaryAt, List.append_assoc] at hw1 hw2 hw3 ⊢
  rw [dropLit_self_append, Option.some_bind, hw1, Option.some_bind,
    dropLit_self_append, Option.some_bind, hw2, Option.some_bind,
    dropLit_self_append, Option.some_bind, hw3, Option.some_bind, hD2]
  rfl

theorem summaryScan_canonical (d1 d2 d3 : List Char)
    (h1 : d1 ≠ []) (ha1 : ∀ c ∈ d1, isDigitCh c = true)
    (h2 : d2 ≠ []) (ha2 : ∀ c ∈ d2, isDigitCh c = true)
    (h3 : d3 ≠ []) (ha3 : ∀ c ∈ d3, isDigitCh c = true) :
    summaryScan (summaryLineOf d1 d2 d3)
      = some (digitsVal d1, digitsVal d2, digitsVal d3) := by
  have hm := matchSummaryAt_canonical d1 d2 d3 h1 ha1 h2 ha2 h3 ha3
  have hcons : summaryLineOf d1 d2 d3
      = 'P' :: (strL "lan: " ++ d1 ++ strL " to add, " ++ d2 ++
          strL " to change, " ++ d3 ++ strL " to destroy") := by
    have : strL "Plan: " = 'P' :: strL "lan: " := by decide
    simp [summaryLineOf, this]
  rw [hcons] at hm ⊢
  rw [summaryScan]
  simp only [List.append_assoc] at hm ⊢
  rw [hm]
  rfl

theorem splitOnCharL_ne_nil (sep : Char) (l : List Char) :
    splitOnCharL sep l ≠ [] := by
  cases l with
  | nil => simp [splitOnCharL]
  | cons c r =>
    by_cases h : c == sep
    · simp [splitOnCharL, h]
    · simp only [splitOnCharL, h, Bool.false_eq_true, if_false]
      rcases hr : splitOnCharL sep r with _ | ⟨a, t⟩ <;> simp

theorem splitOnCharL_append_sep (sep : Char) (xs ys : List Char) :
    splitOnCharL sep (xs ++ sep :: ys)
      = splitOnCharL sep xs ++ splitOnCharL sep ys := by
  induction xs with
  | nil => simp [splitOnCharL]
  | cons c xs ih =>
    by_cases h : c == sep
    · simp [splitOnCharL, h, ih]
    · rcases hx : splitOnCharL sep xs with _ | ⟨a, t⟩
      · exact absurd hx (splitOnCharL_ne_nil sep xs)
      · rw [List.cons_append, splitOnCharL, if_neg (by simpa using h), ih, hx,
          List.cons_append, splitOnCharL, if_neg (by simpa using h), hx]
        rfl

theorem splitOnCharL_no_sep (sep : Char) (l : List Char)
    (h : ∀ c ∈ l, ¬ c = sep) : splitOnCharL sep l = [l] := by
  induction l with
  | nil => rfl
  | cons c r ih =>
    have hc : (c == sep) = false := by
      simpa using h c (by simp)
    simp only [splitOnCharL, hc, Bool.false_eq_true, if_false]
    rw [ih (fun x hx => h x (by simp [hx]))]

theorem startsWith_mem (l pat : List Char) (h : startsWithL l pat = true) :
    ∀ c ∈ pat, c ∈ l := by
  induction pat generalizing l with
  | nil => simp
  | cons p ps ih =>
    cases l with
    | nil => simp [startsWithL] at h
    | cons a t =>
      simp only [startsWithL, Bool.and_eq_true, beq_iff_eq] at h
      intro c hc
      rcases List.mem_cons.mp hc with rfl | hc2
      · simp [h.1]
      · exact List.mem_cons_of_mem a (ih t h.2 c hc2)

theorem contains_mem (l pat : List Char) (h : containsL l pat = true) :
    ∀ c ∈ pat, c ∈ l := by
  induction l with
  | nil =>
    cases pat with
    | nil => simp
    | cons p ps => simp [containsL, startsWithL] at h
  | cons a t ih =>
    simp only [containsL, Bool.or_eq_true] at h
    rcases h with h | h
    · exact startsWith_mem _ _ h
    · exact fun c hc => List.mem_cons_of_mem a (ih h c hc)

theorem contains_false_of_notmem (l pat : List Char) (c : Char)
    (hc : c ∈ pat) (h : c ∉ l) : containsL l pat = false := by
  cases hcl : containsL l pat
  · rfl
  · exact absurd (contains_mem l pat hcl c hc) h

theorem digit_ne_of (c x : Char) (h : isDigitCh c = true)
    (hx : isDigitCh x = false) : ¬ c = x := by
  intro he
  rw [he, hx] at h
  cases h

/-- The canonical summary line contains no number-sign character. -/
theorem sline_no_hash (d1 d2 d3 : List Char)
    (ha1 : ∀ c ∈ d1, isDigitCh c = true)
    (ha2 : ∀ c ∈ d2, isDigitCh c = true)
    (ha3 : ∀ c ∈ d3, isDigitCh c = true) :
    '#' ∉ summaryLineOf d1 d2 d3 := by
  intro hmem
  have hlit : ∀ x ∈ strL "Plan: " ++ strL " to add, " ++ strL " to change, "
      ++ strL " to destroy", ¬ x = '#' := by decide
  simp only [summaryLineOf, List.mem_append] at hmem
  rcases hmem with ((((((hm | hm) | hm) | hm) | hm) | hm) | hm)
  · exact hlit '#' (by simp [hm]) rfl
  · exact digit_ne_of '#' '#' (ha1 '#' hm) (by decide) rfl
  · exact hlit '#' (by simp [hm]) rfl
  · exact digit_ne_of '#' '#' (ha2 '#' hm) (by decide) rfl
  · exact hlit '#' (by simp [hm]) rfl
  · exact digit_ne_of '#' '#' (ha3 '#' hm) (by decide) rfl
  · exact hlit '#' (by simp [hm]) rfl

/-- The canonical summary line has no newline. -/
theorem sline_no_nl (d1 d2 d3 : List Char)
    (ha1 : ∀ c ∈ d1, isDigitCh c = true)
    (ha2 : ∀ c ∈ d2, isDigitCh c = true)
    (ha3 : ∀ c ∈ d3, isDigitCh c = true) :
    ∀ c ∈ summaryLineOf d1 d2 d3, ¬ c = '\n' := by
  intro c hmem
  have hlit : ∀ x ∈ strL "Plan: " ++ strL " to add, " ++ strL " to change, "
      ++ strL " to destroy", ¬ x = '\n' := by decide
  simp only [summaryLineOf, List.mem_append] at hmem
  rcases hmem with ((((((hm | hm) | hm) | hm) | hm) | hm) | hm)
  · exact hlit c (by simp [hm])
  · exact digit_ne_of c '\n' (ha1 c hm) (by decide)
  · exact hlit c (by simp [hm])
  · exact digit_ne_of c '\n' (ha2 c hm) (by decide)
  · exact hlit c (by simp [hm])
  · exact digit_ne_of c '\n' (ha3 c hm) (by decide)
  · exact hlit c (by simp [hm])

/-- A cons-list whose head is not the marker cannot match the header
regexp once leading whitespace is dropped. -/
theorem isHeaderLine_eq_false_of_head (a : Char) (r : List Char)
    (hws : goWS a = false) (hh : ¬ a = '#') :
    isHeaderLine (a :: r) = false := by
  rw [isHeaderLine, List.dropWhile_cons]
  simp only [hws, Bool.false_eq_true, if_false]
  split
  · rename_i r2 heq
    injection heq with hha hr
    exact absurd hha hh
  · rfl

theorem oldHeader1_head_ne (sym a : Char) (r : List Char)
    (h : (a == sym) = false) : oldHeader1 sym (a :: r) = false := by
  rcases r with _ | ⟨b, _ | ⟨c, t⟩⟩ <;> simp [oldHeader1, h]

theorem oldHeader3_head_ne (s0 s1 s2 a : Char) (r : List Char)
    (h : (a == s0) = false) : oldHeader3 s0 s1 s2 (a :: r) = false := by
  rcases r with _ | ⟨b, _ | ⟨c, _ | ⟨d, _ | ⟨e, t⟩⟩⟩⟩ <;> simp [oldHeader3, h]

theorem trimSpaceL_eq_nil_iff (l : List Char) :
    trimSpaceL l = [] ↔ ∀ c ∈ l, goSpace c = true := by
  unfold trimSpaceL
  rw [List.reverse_eq_nil_iff, List.dropWhile_eq_nil_iff]
  constructor
  · intro h c hc
    conv at hc => rw [← List.takeWhile_append_dropWhile
      (p := fun c => goSpace c) (l := l)]
    rcases List.mem_append.mp hc with hc1 | hc2
    · exact List.mem_takeWhile_imp hc1
    · exact h c (by simpa using hc2)
  · intro h c hc
    simp only [List.mem_reverse] at hc
    exact h c ((List.dropWhile_sublist _).subset hc)

theorem summaryLineOf_cons (d1 d2 d3 : List Char) :
    summaryLineOf d1 d2 d3
      = 'P' :: (strL "lan: " ++ d1 ++ strL " to add, " ++ d2 ++
          strL " to change, " ++ d3 ++ strL " to destroy") := by
  have h : strL "Plan: " = 'P' :: strL "lan: " := by decide
  simp [summaryLineOf, h]

/-- The canonical summary line is not a new-format resource header. -/
theorem sline_not_header (d1 d2 d3 : List Char) :
    isHeaderLine (summaryLineOf d1 d2 d3) = false := by
  rw [summaryLineOf_cons]
  exact isHeaderLine_eq_false_of_head 'P' _ (by decide) (by decide)

/-- The canonical summary line is inert for the old-format line loop. -/
theorem ofStep_sline (st : List Resource × Option Resource)
    (d1 d2 d3 : List Char) :
    ofStep st (summaryLineOf d1 d2 d3) = st := by
  rw [summaryLineOf_cons]
  set R := strL "lan: " ++ d1 ++ strL " to add, " ++ d2 ++
    strL " to change, " ++ d3 ++ strL " to destroy" with hR
  have htrim : ¬ trimSpaceL ('P' :: R) = [] := by
    rw [trimSpaceL_eq_nil_iff]
    intro h
    have := h 'P' (by simp)
    simp [goSpace] at this
  have h1 : oldHeader1 '+' ('P' :: R) = false :=
    oldHeader1_head_ne _ _ _ (by decide)
  have h2 : oldHeader1 '-' ('P' :: R) = false :=
    oldHeader1_head_ne _ _ _ (by decide)
  have h3 : oldHeader1 '~' ('P' :: R) = false :=
    oldHeader1_head_ne _ _ _ (by decide)
  have h4 : oldHeader3 '-' '/' '+' ('P' :: R) = false :=
    oldHeader3_head_ne _ _ _ _ _ (by decide)
  have h5 : oldHeader3 '+' '/' '-' ('P' :: R) = false :=
    oldHeader3_head_ne _ _ _ _ _ (by decide)
  rw [ofStep]
  simp only [htrim, if_false, h1, h2, h3, h4, h5, Bool.false_and,
    Bool.false_eq_true]

theorem parseNewFormat_append_sline (lines : List (List Char))
    (d1 d2 d3 : List Char) :
    parseNewFormat (lines ++ [summaryLineOf d1 d2 d3])
      = parseNewFormat lines := by
  have h := flushNF_nonheader (List.foldl nfStep ⟨[], none, false, 0⟩ lines)
    (summaryLineOf d1 d2 d3) (sline_not_header d1 d2 d3)
  simp only [parseNewFormat, List.foldl_append, List.foldl_cons,
    List.foldl_nil]
  simpa [flushNF] using h

theorem parseOldFormat_append_sline (lines : List (List Char))
    (d1 d2 d3 : List Char) :
    parseOldFormat (lines ++ [summaryLineOf d1 d2 d3])
      = parseOldFormat lines := by
  simp only [parseOldFormat, List.foldl_append, List.foldl_cons,
    List.foldl_nil, ofStep_sline]

/-- C8: Parse is total with an always-nil error; when no line matches the
summary pattern all three totals are zero; and appending a line that does
match the summary pattern (the canonical Plan: line with digit captures
d1, d2, d3) leaves the parsed resource list unchanged. -/
theorem claim_C8 (input : List Char) (d1 d2 d3 : List Char)
    (hd1 : d1 ≠ []) (ha1 : ∀ c ∈ d1, isDigitCh c = true)
    (hd2 : d2 ≠ []) (ha2 : ∀ c ∈ d2, isDigitCh c = true)
    (hd3 : d3 ≠ []) (ha3 : ∀ c ∈ d3, isDigitCh c = true)
    (hnosum : ∀ l ∈ splitOnCharL '\n' input, summaryScan l = none) :
    (Parse input).2 = none ∧
    (Parse input).1.TotalAdd = 0 ∧ (Parse input).1.TotalChange = 0 ∧
    (Parse input).1.TotalDestroy = 0 ∧
    summaryScan (summaryLineOf d1 d2 d3)
      = some (digitsVal d1, digitsVal d2, digitsVal d3) ∧
    (Parse (input ++ '\n' :: summaryLineOf d1 d2 d3)).1.Resources
      = (Parse input).1.Resources := by
  have hscan := summaryScan_canonical d1 d2 d3 hd1 ha1 hd2 ha2 hd3 ha3
  have hnone : parseSummary (splitOnCharL '\n' input) = none := by
    rw [parseSummary, List.findSome?_eq_none_iff]
    exact hnosum
  have hlines : splitOnCharL '\n' (input ++ '\n' :: summaryLineOf d1 d2 d3)
      = splitOnCharL '\n' input ++ [summaryLineOf d1 d2 d3] := by
    rw [splitOnCharL_append_sep,
      splitOnCharL_no_sep '\n' _ (sline_no_nl d1 d2 d3 ha1 ha2 ha3)]
  have hnf : isNewFormat
      (splitOnCharL '\n' input ++ [summaryLineOf d1 d2 d3])
      = isNewFormat (splitOnCharL '\n' input) := by
    have hc : containsL (summaryLineOf d1 d2 d3) (strL "# ") = false :=
      contains_false_of_notmem _ _ '#' (by decide)
        (sline_no_hash d1 d2 d3 ha1 ha2 ha3)
    simp [isNewFormat, List.any_append, hc]
  refine ⟨Parse_error_none input, ?_, ?_, ?_, hscan, ?_⟩
  · simp [Parse, hnone]
  · simp [Parse, hnone]
  · simp [Parse, hnone]
  · rw [Parse_Resources, Parse_Resources, hlines, hnf]
    by_cases hN : isNewFormat (splitOnCharL '\n' input) = true
    · simp [hN, parseNewFormat_append_sline]
    · simp only [Bool.not_eq_true] at hN
      simp [hN, parseOldFormat_append_sline]

/-- Witness for C8: the hypotheses discharged at a concrete summary-free
input and concrete one-digit captures. -/
theorem claim_C8_witness :
    (Parse (strL "hello" ++ '\n' :: summaryLineOf (strL "1") (strL "2")
        (strL "3"))).1.Resources
      = (Parse (strL "hello")).1.Resources :=
  (claim_C8 (strL "hello") (strL "1") (strL "2") (strL "3")
    (by decide) (by decide) (by decide) (by decide) (by decide) (by decide)
    (by decide)).2.2.2.2.2

/-! ## Content decoder (internal/tui userdata decoding)

Byte slices are List Nat (values < 256 in practice).  The Go standard
library decoders — the four base64 encodings tried by tryBase64Variants and
the gzip inflation used by tryGzipDecompress — are not repository code; they
are abstracted as the fields of Codecs, and every theorem below holds for
every behavior of these fields.  The defer/recover wrapper of
TryDecodeUserdata corresponds to totality of the Lean function. -/

structure Codecs where
  base64Decoders : List (List Char → Option (List Nat))
  inflate : List Nat → Option (List Nat)

/-- stripBase64Whitespace (userdata.go): remove every newline, carriage
return and space. -/
def stripBase64Whitespace (s : List Char) : List Char :=
  s.filter fun c => !(c == '\n' || c == '\r' || c == ' ')

/-- tryGzipDecompress (userdata.go): require the two gzip magic bytes, then
inflate (gzip.NewReader + io.ReadAll abstracted; any failure is none). -/
def tryGzipDecompress (cx : Codecs) (b : List Nat) : Option (List Nat) :=
  match b with
  | b0 :: b1 :: _ => if b0 = 0x1f ∧ b1 = 0x8b then cx.inflate b else none
  | _ => none

/-- The encoding loop of tryBase64Variants (userdata.go): first encoding
that decodes wins; a decodable gzip payload is inflated, otherwise the raw
decode is returned. -/
def tryB64Loop (cx : Codecs) :
    List (List Char → Option (List Nat)) → List Char → Option (List Nat)
  | [], _ => none
  | enc :: rest, s =>
    match enc s with
    | some decoded =>
      match tryGzipDecompress cx decoded with
      | some decompressed => some decompressed
      | none => some decoded
    | none => tryB64Loop cx rest s

/-- tryBase64Variants (userdata.go). -/
def tryBase64Variants (cx : Codecs) (s : List Char) : Option (List Nat) :=
  tryB64Loop cx cx.base64Decoders s

/-- The hex character class accepted by tryHexDecode (userdata.go). -/
def isHexCh (c : Char) : Bool :=
  ('0' ≤ c && c ≤ '9') || ('a' ≤ c && c ≤ 'f') || ('A' ≤ c && c ≤ 'F')

def hexVal (c : Char) : Nat :=
  if '0' ≤ c ∧ c ≤ '9' then c.toNat - 48
  else if 'a' ≤ c ∧ c ≤ 'f' then c.toNat - 87
  else c.toNat - 55

def hexPairs : List Char → List Nat
  | a :: b :: r => (hexVal a * 16 + hexVal b) :: hexPairs r
  | _ => []

/-- tryHexDecode (userdata.go): even length and all-hex characters, then
pairwise decode (hex.DecodeString cannot fail after those checks). -/
def tryHexDecode (s : List Char) : Option (List Nat) :=
  if s.length % 2 ≠ 0 then none
  else if !s.all (fun c => isHexCh c) then none
  else some (hexPairs s)

/-- A UTF-8 continuation byte. -/
def utf8Cont (c : Nat) : Bool := 0x80 ≤ c && c ≤ 0xBF

/-- unicode/utf8 Valid on a byte list: the RFC 3629 well-formed byte
sequences. -/
def utf8Valid : List Nat → Bool
  | [] => true
  | b :: r =>
    if b < 0x80 then utf8Valid r
    else if 0xC2 ≤ b ∧ b ≤ 0xDF then
      match r with
      | c1 :: r2 => utf8Cont c1 && utf8Valid r2
      | [] => false
    else if b = 0xE0 then
      match r with
      | c1 :: c2 :: r2 =>
        (0xA0 ≤ c1 && c1 ≤ 0xBF) && utf8Cont c2 && utf8Valid r2
      | _ => false
    else if (0xE1 ≤ b ∧ b ≤ 0xEC) ∨ b = 0xEE ∨ b = 0xEF then
      match r with
      | c1 :: c2 :: r2 => utf8Cont c1 && utf8Cont c2 && utf8Valid r2
      | _ => false
    else if b = 0xED then
      match r with
      | c1 :: c2 :: r2 =>
        (0x80 ≤ c1 && c1 ≤ 0x9F) && utf8Cont c2 && utf8Valid r2
      | _ => false
    else if b = 0xF0 then
      match r with
      | c1 :: c2 :: c3 :: r2 =>
        (0x90 ≤ c1 && c1 ≤ 0xBF) && utf8Cont c2 && utf8Cont c3 &&
          utf8Valid r2
      | _ => false
    else if 0xF1 ≤ b ∧ b ≤ 0xF3 then
      match r with
      | c1 :: c2 :: c3 :: r2 =>
        utf8Cont c1 && utf8Cont c2 && utf8Cont c3 && utf8Valid r2
      | _ => false
    else if b = 0xF4 then
      match r with
      | c1 :: c2 :: c3 :: r2 =>
        (0x80 ≤ c1 && c1 ≤ 0x8F) && utf8Cont c2 && utf8Cont c3 &&
          utf8Valid r2
      | _ => false
    else false
termination_by l => l.length
decreasing_by all_goals simp_arith

/-- validateDecoded (userdata.go): reject a NUL byte or invalid UTF-8,
otherwise accept the bytes. -/
def validateDecoded (b : List Nat) : Option (List Nat) :=
  if b.any (fun c => c == 0) then none
  else if !utf8Valid b then none
  else some b

/-- TryDecodeUserdata (userdata.go): placeholder rejection, base64 variants
(with whitespace stripped) validated first, hex fallback validated second,
otherwise the not-decodable result. -/
def TryDecodeUserdata (cx : Codecs) (s : List Char) : List Nat × Bool :=
  if s = [] ∨ s = strL "null" ∨ startsWithL s (strL "(") = true then
    ([], false)
  else
    match
      match tryBase64Variants cx (stripBase64Whitespace s) with
      | some decoded => validateDecoded decoded
      | none => none
    with
    | some validated => (validated, true)
    | none =>
      match tryHexDecode s with
      | some decoded =>
        match validateDecoded decoded with
        | some validated => (validated, true)
        | none => ([], false)
      | none => ([], false)

theorem validateDecoded_spec (b v : List Nat)
    (h : validateDecoded b = some v) :
    v = b ∧ utf8Valid v = true ∧ ∀ c ∈ v, ¬ c = 0 := by
  by_cases h0 : b.any (fun c => c == 0)
  · simp [validateDecoded, h0] at h
  · by_cases h1 : utf8Valid b
    · simp only [validateDecoded, h0, Bool.false_eq_true, if_false, h1,
        Bool.not_true, Option.some.injEq] at h
      subst h
      refine ⟨rfl, h1, ?_⟩
      intro c hc hzero
      subst hzero
      exact h0 (List.any_eq_true.mpr ⟨0, hc, by simp⟩)
    · simp only [validateDecoded, h0, Bool.false_eq_true, if_false] at h
      rw [Bool.not_eq_true] at h1
      simp [h1] at h

/-- C9: TryDecodeUserdata is total (the Lean model of the recover wrapper);
the empty string, the null placeholder and any parenthesized marker yield
the not-decodable result; any failing decode path yields the not-decodable
result with an empty payload; and a successful result is always valid UTF-8
containing no NUL byte — for every behavior of the abstracted standard
library codecs. -/
theorem claim_C9 (cx : Codecs) (s : List Char) :
    (s = [] ∨ s = strL "null" ∨ startsWithL s (strL "(") = true →
      TryDecodeUserdata cx s = ([], false)) ∧
    ((TryDecodeUserdata cx s).2 = false → (TryDecodeUserdata cx s).1 = []) ∧
    ((TryDecodeUserdata cx s).2 = true →
      utf8Valid (TryDecodeUserdata cx s).1 = true ∧
      ∀ c ∈ (TryDecodeUserdata cx s).1, ¬ c = 0) := by
  refine ⟨fun h => by simp [TryDecodeUserdata, h], ?_, ?_⟩ <;>
  · intro h
    by_cases he : s = [] ∨ s = strL "null" ∨ startsWithL s (strL "(") = true
    · simp [TryDecodeUserdata, he] at h ⊢
    · rcases hb : tryBase64Variants cx (stripBase64Whitespace s)
        with _ | decoded
      · rcases hx : tryHexDecode s with _ | hdec
        · simp_all [TryDecodeUserdata, he, hb, hx]
        · rcases hv : validateDecoded hdec with _ | v
          · simp_all [TryDecodeUserdata, he, hb, hx, hv]
          · obtain ⟨rfl, hu, hz⟩ := validateDecoded_spec hdec v hv
            simp_all [TryDecodeUserdata, he, hb, hx, hv]
      · rcases hv : validateDecoded decoded with _ | v
        · rcases hx : tryHexDecode s with _ | hdec
          · simp_all [TryDecodeUserdata, he, hb, hx, hv]
          · rcases hv2 : validateDecoded hdec with _ | v2
            · simp_all [TryDecodeUserdata, he, hb, hx, hv, hv2]
            · obtain ⟨rfl, hu, hz⟩ := validateDecoded_spec hdec v2 hv2
              simp_all [TryDecodeUserdata, he, hb, hx, hv, hv2]
        · obtain ⟨rfl, hu, hz⟩ := validateDecoded_spec decoded v hv
          simp_all [TryDecodeUserdata, he, hb, hv]

/-- Witness for C9: the placeholder hypothesis discharged concretely, with
the trivial codecs. -/
theorem claim_C9_witness :
    TryDecodeUserdata ⟨[], fun _ => none⟩ (strL "(sensitive value)")
      = ([], false) :=
  (claim_C9 ⟨[], fun _ => none⟩ (strL "(sensitive value)")).1
    (Or.inr (Or.inr (by decide)))

/-! ## Viewer state machine (internal/tui/model.go)

Key events are the strings produced by bubbletea's KeyMsg.String.  The
external widgets are abstracted minimally: the viewport is a raw offset and
height (scrolling never touches the cursor or the displayed list), and the
search textinput is a character buffer edited by single-character keys and
backspace under its 100-character limit.  Go's sort.Slice is an unspecified
unstable sort; the model sorts with an insertion sort over the same
comparator — no claim depends on the order among comparator-equal elements.
Go map[Action]bool is an association list with unique keys; len counts all
entries, including those whose value is false. -/

/-- SortOrder (model.go). -/
inductive SortOrder where
  | default
  | byAction
  | byAddress
  | byType
deriving DecidableEq, Repr

/-- sortOptions (model.go). -/
def sortOptions : List SortOrder :=
  [SortOrder.default, SortOrder.byAction, SortOrder.byAddress, SortOrder.byType]

/-- actionOrder (model.go); the map contains every Action, so the not-found
fallback 99 of the Go lookup is unreachable. -/
def actionOrder : Action → Nat
  | Action.create => 0
  | Action.read => 1
  | Action.update => 2
  | Action.replace => 3
  | Action.deleteCreate => 4
  | Action.createDelete => 5
  | Action.destroy => 6
  | Action.noop => 7

/-- filterableActions (model.go). -/
def filterableActions : List Action :=
  [Action.create, Action.destroy, Action.update, Action.replace, Action.read,
    Action.deleteCreate, Action.createDelete]

/-- Go string comparison (byte-wise lexicographic; modelled char-wise). -/
def lexLt : List Char → List Char → Bool
  | [], [] => false
  | [], _ :: _ => true
  | _ :: _, [] => false
  | a :: x, b :: y => if a < b then true else if b < a then false else lexLt x y

/-- The status-filter map: none is the nil map; an entry list with unique
keys otherwise. -/
def mapLen : Option (List (Action × Bool)) → Nat
  | none => 0
  | some l => l.length

def mapGet (m : Option (List (Action × Bool))) (a : Action) : Bool :=
  match m with
  | none => false
  | some l => ((l.find? fun p => p.1 == a).map Prod.snd).getD false

/-- Map assignment; writing to the nil map is unreachable in the source
(the picker initializes the map before any toggle). -/
def mapSet (m : Option (List (Action × Bool))) (a : Action) (v : Bool) :
    Option (List (Action × Bool)) :=
  match m with
  | none => none
  | some l =>
    if l.any fun p => p.1 == a then
      some (l.map fun p => if p.1 == a then (p.1, v) else p)
    else some (l ++ [(a, v)])

/-- Model (model.go), restricted to the state the claims concern.  The
viewport is yOffset/vpHeight; ready/width/height, the plan file and command
strings and the update-check field only affect rendering. -/
structure TuiModel where
  plan : List Resource
  cursor : Int
  expanded : List Nat
  searching : Bool
  searchInput : List Char
  searchQuery : List Char
  searchMatches : List Nat
  currentMatch : Int
  pendingG : Bool
  applyMode : Bool
  shouldApply : Bool
  confirmApply : Bool
  statusFilters : Option (List (Action × Bool))
  filtering : Bool
  filterCursor : Nat
  sortOrder : SortOrder
  sorting : Bool
  sortCursor : Nat
  yOffset : Int
  vpHeight : Int
deriving DecidableEq, Repr

/-- NewModel (model.go): the view-only initial state. -/
def initModel (plan : List Resource) : TuiModel where
  plan := plan
  cursor := 0
  expanded := []
  searching := false
  searchInput := []
  searchQuery := []
  searchMatches := []
  currentMatch := 0
  pendingG := false
  applyMode := false
  shouldApply := false
  confirmApply := false
  statusFilters := none
  filtering := false
  filterCursor := 0
  sortOrder := SortOrder.default
  sorting := false
  sortCursor := 0
  yOffset := 0
  vpHeight := 20

def defaultResource : Resource := ⟨[], [], [], Action.noop⟩

def resAtP (plan : List Resource) (i : Nat) : Resource :=
  (plan.get? i).getD defaultResource

def resAt (m : TuiModel) (i : Nat) : Resource := resAtP m.plan i

/-- filteredResources (model.go), on its inputs: all indices when the filter
map has no entries, else the indices whose action maps to true. -/
def filteredF (plan : List Resource)
    (filters : Option (List (Action × Bool))) : List Nat :=
  if mapLen filters = 0 then List.range plan.length
  else (List.range plan.length).filter fun i =>
    mapGet filters (resAtP plan i).action

def filteredResources (m : TuiModel) : List Nat :=
  filteredF m.plan m.statusFilters

/-- The sort.Slice comparator of sortedResources (model.go). -/
def sortLessF (plan : List Resource) (ord : SortOrder) (i j : Nat) : Bool :=
  let ri := resAtP plan i
  let rj := resAtP plan j
  match ord with
  | SortOrder.byAction =>
    if actionOrder ri.action ≠ actionOrder rj.action then
      decide (actionOrder ri.action < actionOrder rj.action)
    else lexLt ri.address rj.address
  | SortOrder.byAddress => lexLt ri.address rj.address
  | SortOrder.byType =>
    if ri.rtype ≠ rj.rtype then lexLt ri.rtype rj.rtype
    else lexLt ri.address rj.address
  | SortOrder.default => false

def insertSorted (less : Nat → Nat → Bool) (x : Nat) : List Nat → List Nat
  | [] => [x]
  | y :: r => if less x y then x :: y :: r else y :: insertSorted less x r

def sortByLess (less : Nat → Nat → Bool) (l : List Nat) : List Nat :=
  l.foldr (insertSorted less) []

/-- sortedResources (model.go), on its inputs. -/
def sortedF (plan : List Resource) (filters : Option (List (Action × Bool)))
    (ord : SortOrder) : List Nat :=
  let filtered := filteredF plan filters
  if ord = SortOrder.default then filtered
  else sortByLess (sortLessF plan ord) filtered

def sortedResources (m : TuiModel) : List Nat :=
  sortedF m.plan m.statusFilters m.sortOrder

/-- displayedResourceIndices (model.go), on its inputs. -/
def displayedF (plan : List Resource)
    (filters : Option (List (Action × Bool))) (ord : SortOrder)
    (query : List Char) (sm : List Nat) : List Nat :=
  let sorted := sortedF plan filters ord
  if query = [] then sorted
  else if sm = [] then []
  else sm.filterMap fun displayIdx => sorted.get? displayIdx

def displayedResourceIndices (m : TuiModel) : List Nat :=
  displayedF m.plan m.statusFilters m.sortOrder m.searchQuery m.searchMatches

/-- The greedy in-order scan of fuzzyMatch (model.go). -/
def subseqGreedy : List Char → List Char → Bool
  | _, [] => true
  | [], _ :: _ => false
  | t :: ts, q :: qs =>
    if t = q then subseqGreedy ts qs else subseqGreedy ts (q :: qs)

/-- fuzzyMatch (model.go): lowercase both, then greedy subsequence scan. -/
def fuzzyMatch (text query : List Char) : Bool :=
  subseqGreedy (toLowerL text) (toLowerL query)

/-- strings.Fields (ASCII whitespace). -/
def fieldsAux : List Char → List Char → List (List Char)
  | [], acc => if acc = [] then [] else [acc.reverse]
  | c :: r, acc =>
    if goSpace c then
      if acc = [] then fieldsAux r [] else acc.reverse :: fieldsAux r []
    else fieldsAux r (c :: acc)

def fieldsL (l : List Char) : List (List Char) := fieldsAux l []

/-- The searchable text of a resource in performSearch (model.go). -/
def searchableOf (r : Resource) : List Char :=
  toLowerL (r.address ++ [' '] ++ r.rtype ++ [' '] ++ r.rname)

/-- The match list performSearch computes, on its inputs: display indices
into the filtered+sorted list whose resource satisfies every query term. -/
def matchesF (plan : List Resource)
    (filters : Option (List (Action × Bool))) (ord : SortOrder)
    (query : List Char) : List Nat :=
  if query = [] then []
  else
    let terms := fieldsL (toLowerL query)
    if terms = [] then []
    else
      (List.range (sortedF plan filters ord).length).filter fun di =>
        terms.all fun t =>
          fuzzyMatch
            (searchableOf (resAtP plan (((sortedF plan filters ord).get? di).getD 0))) t

def computeMatches (m : TuiModel) : List Nat :=
  matchesF m.plan m.statusFilters m.sortOrder m.searchQuery

/-- performSearch (model.go). -/
def performSearch (m : TuiModel) : TuiModel :=
  let m1 := { m with searchMatches := [], currentMatch := 0 }
  if m1.searchQuery = [] then m1
  else
    let terms := fieldsL (toLowerL m1.searchQuery)
    if terms = [] then m1
    else
      let ms := computeMatches m1
      let m2 := { m1 with searchMatches := ms }
      if ms ≠ [] then { m2 with cursor := 0, currentMatch := 0 } else m2

/-- clampCursorAndRefreshSearch (model.go). -/
def clampCursorAndRefreshSearch (m : TuiModel) : TuiModel :=
  let displayed := displayedResourceIndices m
  let m1 :=
    if m.cursor ≥ (displayed.length : Int) then
      if displayed.length > 0 then { m with cursor := (displayed.length : Int) - 1 }
      else { m with cursor := 0 }
    else m
  if m1.searchQuery ≠ [] then performSearch m1 else m1

/-- clearSearch (model.go). -/
def clearSearch (m : TuiModel) : TuiModel :=
  { m with searchQuery := [], searchMatches := [], searchInput := [] }

/-- nextMatch (model.go); Int.tmod is Go's truncated %. -/
def nextMatch (m : TuiModel) : TuiModel :=
  if m.searchQuery = [] ∨ m.searchMatches = [] then m
  else
    let displayed := displayedResourceIndices m
    if displayed.length > 0 then
      let cm := (m.currentMatch + 1).tmod (displayed.length : Int)
      { m with currentMatch := cm, cursor := cm }
    else m

/-- prevMatch (model.go). -/
def prevMatch (m : TuiModel) : TuiModel :=
  if m.searchQuery = [] ∨ m.searchMatches = [] then m
  else
    let displayed := displayedResourceIndices m
    if displayed.length > 0 then
      let cm0 := m.currentMatch - 1
      let cm := if cm0 < 0 then (displayed.length : Int) - 1 else cm0
      { m with currentMatch := cm, cursor := cm }
    else m

/-- expandAll (model.go). -/
def expandAll (m : TuiModel) : TuiModel :=
  let e2 := (displayedResourceIndices m).foldl
    (fun e i => if i ∈ e then e else e ++ [i]) m.expanded
  { m with expanded := e2 }

/-- collapseAll (model.go). -/
def collapseAll (m : TuiModel) : TuiModel :=
  let e2 := m.expanded.filter fun i => !(displayedResourceIndices m).contains i
  { m with expanded := e2 }

def handleKeyUp (m : TuiModel) : TuiModel :=
  if m.cursor > 0 then { m with cursor := m.cursor - 1 }
  else { m with yOffset := m.yOffset - 1 }

def handleKeyDown (m : TuiModel) : TuiModel :=
  let filtered := displayedResourceIndices m
  if m.cursor < (filtered.length : Int) - 1 then { m with cursor := m.cursor + 1 }
  else { m with yOffset := m.yOffset + 1 }

def handleKeyEnter (m : TuiModel) : TuiModel :=
  let filtered := displayedResourceIndices m
  if filtered.length > 0 ∧ 0 ≤ m.cursor ∧ m.cursor < (filtered.length : Int) then
    let idx := (filtered.get? m.cursor.toNat).getD 0
    let e2 := if idx ∈ m.expanded then m.expanded.filter (fun i => !(i == idx))
      else m.expanded ++ [idx]
    { m with expanded := e2 }
  else m

def handleKeyCollapseCurrent (m : TuiModel) : TuiModel :=
  let filtered := displayedResourceIndices m
  if filtered.length > 0 ∧ 0 ≤ m.cursor ∧ m.cursor < (filtered.length : Int) then
    let idx := (filtered.get? m.cursor.toNat).getD 0
    let e2 := m.expanded.filter fun i => !(i == idx)
    { m with expanded := e2 }
  else m

def handleKeyExpandCurrent (m : TuiModel) : TuiModel :=
  let filtered := displayedResourceIndices m
  if filtered.length > 0 ∧ 0 ≤ m.cursor ∧ m.cursor < (filtered.length : Int) then
    let idx := (filtered.get? m.cursor.toNat).getD 0
    let e2 := if idx ∈ m.expanded then m.expanded else m.expanded ++ [idx]
    { m with expanded := e2 }
  else m

def handleKeyFilter (m : TuiModel) : TuiModel :=
  let f2 := match m.statusFilters with
    | none => some []
    | some l => some l
  { m with filtering := true, filterCursor := 0, statusFilters := f2 }

def handleKeySort (m : TuiModel) : TuiModel :=
  let sc := (sortOptions.findIdx? (fun o => o == m.sortOrder)).getD 0
  { m with sorting := true, sortCursor := sc }

def handleKeySearch (m : TuiModel) : TuiModel := { m with searching := true }

def handleKeyEsc (m : TuiModel) : TuiModel :=
  if mapLen m.statusFilters > 0 then
    clampCursorAndRefreshSearch { m with statusFilters := none }
  else clearSearch m

def scrollHalfPageDown (m : TuiModel) : TuiModel :=
  { m with yOffset := m.yOffset + m.vpHeight / 2 }

def scrollHalfPageUp (m : TuiModel) : TuiModel :=
  { m with yOffset := max 0 (m.yOffset - m.vpHeight / 2) }

def handleGKey (m : TuiModel) : TuiModel :=
  if m.pendingG then { m with cursor := 0, yOffset := 0, pendingG := false }
  else { m with pendingG := true }

def gotoBottom (m : TuiModel) : TuiModel :=
  let displayed := displayedResourceIndices m
  let m1 :=
    if displayed.length > 0 then
      { m with cursor := (displayed.length : Int) - 1 }
    else m
  { m1 with pendingG := false }

def handleKeyPgUp (m : TuiModel) : TuiModel :=
  { m with yOffset := 0 - m.vpHeight }

def handleKeyPgDown (m : TuiModel) : TuiModel :=
  { m with yOffset := m.yOffset + m.vpHeight }

def handleKeyApply (m : TuiModel) : TuiModel :=
  if m.applyMode then
    if m.confirmApply then { m with shouldApply := true }
    else { m with confirmApply := true }
  else m

def handleKeyConfirmApply (m : TuiModel) : TuiModel :=
  if m.applyMode ∧ m.confirmApply then { m with shouldApply := true } else m

/-- normalKeyHandlers (model.go); none is an unmapped key. -/
def normalHandler : String → Option (TuiModel → TuiModel)
  | "q" => some id
  | "ctrl+c" => some id
  | "up" => some handleKeyUp
  | "k" => some handleKeyUp
  | "down" => some handleKeyDown
  | "j" => some handleKeyDown
  | "enter" => some handleKeyEnter
  | " " => some handleKeyEnter
  | "e" => some expandAll
  | "c" => some collapseAll
  | "f" => some handleKeyFilter
  | "s" => some handleKeySort
  | "/" => some handleKeySearch
  | "n" => some nextMatch
  | "N" => some prevMatch
  | "esc" => some handleKeyEsc
  | "backspace" => some handleKeyCollapseCurrent
  | "h" => some handleKeyCollapseCurrent
  | "left" => some handleKeyCollapseCurrent
  | "d" => some scrollHalfPageDown
  | "ctrl+d" => some scrollHalfPageDown
  | "u" => some scrollHalfPageUp
  | "ctrl+u" => some scrollHalfPageUp
  | "g" => some handleGKey
  | "G" => some gotoBottom
  | "pgup" => some handleKeyPgUp
  | "pgdown" => some handleKeyPgDown
  | "l" => some handleKeyExpandCurrent
  | "right" => some handleKeyExpandCurrent
  | "a" => some handleKeyApply
  | "y" => some handleKeyConfirmApply
  | _ => none

/-- handleNormalKey (model.go): pendingG cancellation, dispatch, one-shot
confirmation disarm. -/
def normalStep (m : TuiModel) (k : String) : TuiModel :=
  let m1 := if k ≠ "g" ∧ k ≠ "G" then { m with pendingG := false } else m
  match normalHandler k with
  | some h =>
    let m2 := h m1
    if m1.confirmApply ∧ k ≠ "a" ∧ k ≠ "y" then { m2 with confirmApply := false }
    else m2
  | none =>
    if m1.confirmApply then { m1 with confirmApply := false } else m1

/-- The bubbles textinput edit for one key under CharLimit 100 (external
widget, modelled as append or backspace). -/
def editInput (input : List Char) (k : String) : List Char :=
  if k = "backspace" then input.dropLast
  else if k.length = 1 ∧ input.length < 100 then input ++ k.toList
  else input

/-- The searching-mode branch of Update (model.go). -/
def searchStep (m : TuiModel) (k : String) : TuiModel :=
  match k with
  | "enter" =>
    clampCursorAndRefreshSearch
      (performSearch { m with searching := false, searchQuery := m.searchInput })
  | "esc" =>
    clampCursorAndRefreshSearch
      { m with searching := false, searchInput := [], searchQuery := [], searchMatches := [] }
  | "up" => handleKeyUp m
  | "down" => handleKeyDown m
  | _ =>
    let input := editInput m.searchInput k
    clampCursorAndRefreshSearch
      (performSearch { m with searchInput := input, searchQuery := input })

/-- handleFilterKey (model.go). -/
def filterStep (m : TuiModel) (k : String) : TuiModel :=
  match k with
  | "esc" =>
    clampCursorAndRefreshSearch { m with statusFilters := none, filtering := false }
  | "enter" => clampCursorAndRefreshSearch { m with filtering := false }
  | "up" => if m.filterCursor > 0 then { m with filterCursor := m.filterCursor - 1 } else m
  | "k" => if m.filterCursor > 0 then { m with filterCursor := m.filterCursor - 1 } else m
  | "down" =>
    if m.filterCursor < filterableActions.length - 1 then
      { m with filterCursor := m.filterCursor + 1 }
    else m
  | "j" =>
    if m.filterCursor < filterableActions.length - 1 then
      { m with filterCursor := m.filterCursor + 1 }
    else m
  | " " =>
    let action := (filterableActions.get? m.filterCursor).getD Action.create
    let f2 := mapSet m.statusFilters action (!mapGet m.statusFilters action)
    { m with statusFilters := f2 }
  | "a" =>
    let f2 := filterableActions.foldl (fun f a => mapSet f a true) m.statusFilters
    { m with statusFilters := f2 }
  | "c" => { m with statusFilters := some [] }
  | _ => m

/-- handleSortKey (model.go). -/
def sortStep (m : TuiModel) (k : String) : TuiModel :=
  match k with
  | "esc" => { m with sorting := false }
  | "enter" =>
    let so := (sortOptions.get? m.sortCursor).getD SortOrder.default
    clampCursorAndRefreshSearch { m with sortOrder := so, sorting := false }
  | " " =>
    let so := (sortOptions.get? m.sortCursor).getD SortOrder.default
    clampCursorAndRefreshSearch { m with sortOrder := so, sorting := false }
  | "up" => if m.sortCursor > 0 then { m with sortCursor := m.sortCursor - 1 } else m
  | "k" => if m.sortCursor > 0 then { m with sortCursor := m.sortCursor - 1 } else m
  | "down" =>
    if m.sortCursor < sortOptions.length - 1 then
      { m with sortCursor := m.sortCursor + 1 }
    else m
  | "j" =>
    if m.sortCursor < sortOptions.length - 1 then
      { m with sortCursor := m.sortCursor + 1 }
    else m
  | _ => m

/-- The KeyMsg branch of Update (model.go): mode dispatch. -/
def step (m : TuiModel) (k : String) : TuiModel :=
  if m.filtering then filterStep m k
  else if m.sorting then sortStep m k
  else if m.searching then searchStep m k
  else normalStep m k

/-- A whole key-event trace from the initial model. -/
def runKeys (plan : List Resource) (ks : List String) : TuiModel :=
  ks.foldl step (initModel plan)

/-! ### Claim C3: empty filter selection versus the empty filter map -/

/-- C3 fails on the code: toggling an action on and then off in the filter
picker leaves a false-valued entry in the map, so the map is non-empty and
every resource is filtered out; the displayed list is empty although no
action is enabled.  Clearing via Escape (nil map) does show the whole plan.
The evaluation below exhibits both on a one-resource plan. -/
theorem claim_C3_eval :
    (displayedResourceIndices
      (runKeys [⟨strL "a.b", strL "a", strL "b", Action.update⟩]
        ["f", " ", " ", "enter"]) = [] ∧
     (runKeys [⟨strL "a.b", strL "a", strL "b", Action.update⟩]
        ["f", " ", " ", "enter"]).statusFilters
       = some [(Action.create, false)] ∧
     (runKeys [⟨strL "a.b", strL "a", strL "b", Action.update⟩]
        ["f", " ", " ", "enter"]).sortOrder = SortOrder.default ∧
     (runKeys [⟨strL "a.b", strL "a", strL "b", Action.update⟩]
        ["f", " ", " ", "enter"]).searchQuery = []) ∧
    displayedResourceIndices
      (runKeys [⟨strL "a.b", strL "a", strL "b", Action.update⟩]
        ["f", " ", " ", "enter", "esc"]) = [0] := by decide

/-! ### Claim C7: the search-match characterization -/

theorem subseqGreedy_iff (t q : List Char) :
    subseqGreedy t q = true ↔ List.Sublist q t := by
  induction t generalizing q with
  | nil => cases q <;> simp [subseqGreedy]
  | cons a ts ih =>
    cases q with
    | nil => simp [subseqGreedy, List.nil_sublist]
    | cons b qs =>
      by_cases hab : a = b
      · subst hab
        simp only [subseqGreedy, if_pos rfl]
        constructor
        · intro h
          exact List.Sublist.cons₂ a ((ih qs).mp h)
        · intro h
          have hq : List.Sublist qs ts := by
            cases h with
            | cons _ h2 => exact (List.sublist_cons_self a qs).trans h2
            | cons₂ _ h2 => exact h2
          exact (ih qs).mpr hq
      · simp only [subseqGreedy, if_neg hab]
        rw [ih]
        constructor
        · intro h
          exact List.Sublist.cons a h
        · intro h
          cases h with
          | cons _ h2 => exact h2
          | cons₂ _ h2 => exact absurd rfl hab

theorem char_toNat_ofNat (n : Nat) (h : n.isValidChar) :
    (Char.ofNat n).toNat = n := by
  unfold Char.ofNat
  rw [dif_pos h]
  rfl

theorem toLower_idem (c : Char) :
    Char.toLower (Char.toLower c) = Char.toLower c := by
  show (let n := (Char.toLower c).toNat;
    if n ≥ 65 ∧ n ≤ 90 then Char.ofNat (n + 32) else Char.toLower c)
      = Char.toLower c
  by_cases h : c.toNat ≥ 65 ∧ c.toNat ≤ 90
  · have hl : Char.toLower c = Char.ofNat (c.toNat + 32) := by
      unfold Char.toLower
      simp [h]
    have hv : (c.toNat + 32).isValidChar := by
      left
      omega
    have ht : (Char.toLower c).toNat = c.toNat + 32 := by
      rw [hl]
      exact char_toNat_ofNat _ hv
    simp only [ht]
    rw [if_neg (by omega)]
  · have hl : Char.toLower c = c := by
      unfold Char.toLower
      simp [h]
    rw [hl]
    exact hl

theorem toLowerL_idem (l : List Char) : toLowerL (toLowerL l) = toLowerL l := by
  induction l with
  | nil => rfl
  | cons c r ih => simp [toLowerL, toLower_idem] at ih ⊢

theorem toLowerL_append (a b : List Char) :
    toLowerL (a ++ b) = toLowerL a ++ toLowerL b := List.map_append _ a b

/-- Lower-casing a non-whitespace character never produces a space. -/
theorem toLower_ne_space (c : Char) (h : goSpace c = false) :
    ¬ Char.toLower c = ' ' := by
  intro he
  by_cases hu : c.toNat ≥ 65 ∧ c.toNat ≤ 90
  · have hl : Char.toLower c = Char.ofNat (c.toNat + 32) := by
      unfold Char.toLower
      simp [hu]
    have hv : (c.toNat + 32).isValidChar := by
      left
      omega
    have := congrArg Char.toNat (hl.symm.trans he)
    rw [char_toNat_ofNat _ hv] at this
    simp at this
    omega
  · have hl : Char.toLower c = c := by
      unfold Char.toLower
      simp [hu]
    rw [hl] at he
    subst he
    simp [goSpace] at h

/-- Query terms produced by strings.Fields contain no whitespace. -/
theorem fieldsAux_no_space (l : List Char) :
    ∀ acc, (∀ c ∈ acc, goSpace c = false) →
      ∀ t ∈ fieldsAux l acc, ∀ c ∈ t, goSpace c = false := by
  induction l with
  | nil =>
    intro acc hacc t ht c hc
    by_cases h0 : acc = []
    · simp [fieldsAux, h0] at ht
    · simp [fieldsAux, h0] at ht
      subst ht
      exact hacc c (by simpa using hc)
  | cons x r ih =>
    intro acc hacc t ht c hc
    by_cases hx : goSpace x
    · by_cases h0 : acc = []
      · simp only [fieldsAux, hx, if_pos rfl, h0, if_true] at ht
        exact ih [] (by simp) t ht c hc
      · simp only [fieldsAux, hx, if_true, h0, if_false] at ht
        rcases List.mem_cons.mp ht with rfl | ht2
        · exact hacc c (by simpa using hc)
        · exact ih [] (by simp) t ht2 c hc
    · simp only [fieldsAux, hx, Bool.false_eq_true, if_false] at ht
      refine ih (x :: acc) ?_ t ht c hc
      intro y hy
      rcases List.mem_cons.mp hy with rfl | hy2
      · simpa using hx
      · exact hacc y hy2

theorem fields_no_space (l : List Char) :
    ∀ t ∈ fieldsL l, ∀ c ∈ t, goSpace c = false :=
  fieldsAux_no_space l [] (by simp)

/-- Removing an element that does not occur in q from the middle of the
reference list does not change whether q embeds as a subsequence. -/
theorem sublist_elim_mid (q v : List Char) (c : Char) (hc : ¬ c ∈ q) :
    ∀ u, List.Sublist q (u ++ c :: v) ↔ List.Sublist q (u ++ v) := by
  intro u
  constructor
  · intro h
    induction u generalizing q with
    | nil =>
      simp only [List.nil_append] at h ⊢
      cases h with
      | cons _ h2 => exact h2
      | cons₂ _ h2 => exact absurd (by simp) hc
    | cons a u2 ih =>
      simp only [List.cons_append] at h ⊢
      cases h with
      | cons _ h2 =>
        exact List.Sublist.cons a (ih q hc h2)
      | cons₂ _ h2 =>
        rename_i q2
        have hc2 : ¬ c ∈ q2 := fun hm => hc (by simp [hm])
        exact List.Sublist.cons₂ a (ih q2 hc2 h2)
  · intro h
    refine h.trans ?_
    refine List.Sublist.append_left ?_ u
    exact List.sublist_cons_self c v

/-- One query term matches a resource in performSearch exactly when its
lowercased characters embed in order into the lowercased concatenation of
address, type and name (the space separators of the searchable text are
irrelevant because terms contain no whitespace). -/
theorem fuzzy_term_iff (r : Resource) (t : List Char)
    (ht : ∀ c ∈ t, goSpace c = false) :
    fuzzyMatch (searchableOf r) t = true ↔
      List.Sublist (toLowerL t)
        (toLowerL (r.address ++ r.rtype ++ r.rname)) := by
  have hsp : ¬ ' ' ∈ toLowerL t := by
    intro hm
    rcases List.mem_map.mp hm with ⟨c, hc, he⟩
    exact toLower_ne_space c (ht c hc) he
  have hsp1 : toLowerL [' '] = [' '] := by decide
  unfold fuzzyMatch searchableOf
  rw [toLowerL_idem, subseqGreedy_iff]
  rw [toLowerL_append, toLowerL_append, toLowerL_append, toLowerL_append,
    hsp1]
  rw [toLowerL_append]
  constructor
  · intro h
    have h2 := (sublist_elim_mid (toLowerL t)
      (toLowerL r.rname) ' ' hsp
      (toLowerL r.address ++ [' '] ++ toLowerL r.rtype)).mp
      (by simpa [List.append_assoc] using h)
    have h3 := (sublist_elim_mid (toLowerL t)
      (toLowerL r.rtype ++ toLowerL r.rname) ' ' hsp
      (toLowerL r.address)).mp (by simpa [List.append_assoc] using h2)
    simpa [List.append_assoc, toLowerL_append] using h3
  · intro h
    have h3 := (sublist_elim_mid (toLowerL t)
      (toLowerL r.rtype ++ toLowerL r.rname) ' ' hsp
      (toLowerL r.address)).mpr
      (by simpa [List.append_assoc, toLowerL_append] using h)
    have h2 := (sublist_elim_mid (toLowerL t)
      (toLowerL r.rname) ' ' hsp
      (toLowerL r.address ++ [' '] ++ toLowerL r.rtype)).mpr
      (by simpa [List.append_assoc] using h3)
    simpa [List.append_assoc] using h2

theorem performSearch_matches (m : TuiModel) :
    (performSearch m).searchMatches = computeMatches m := by
  unfold performSearch computeMatches matchesF
  by_cases hq : m.searchQuery = [] <;> simp only [hq]
  · simp
  · simp only [Bool.false_eq_true, if_neg hq, if_false]
    by_cases ht : fieldsL (toLowerL m.searchQuery) = [] <;> simp [ht]
    split <;> rfl

theorem subseqGreedy_nil (l : List Char) : subseqGreedy l [] = true := by
  cases l <;> rfl

def c7plan : List Resource :=
  [⟨strL "aws_lambda_function.example", strL "aws_lambda_function",
    strL "example", Action.create⟩]

/-- C7 fails on the code for whitespace-only queries: the query is active
(non-empty), it has no terms, so by the claim every position matches
vacuously — but performSearch records no match at all (and the viewer then
displays an empty list). -/
theorem claim_C7_counterexample :
    (runKeys c7plan ["/", " "]).searchQuery ≠ [] ∧
    ¬ ((0 ∈ (performSearch (runKeys c7plan ["/", " "])).searchMatches) ↔
        (0 < (sortedResources (runKeys c7plan ["/", " "])).length ∧
         ∀ t ∈ fieldsL (toLowerL (runKeys c7plan ["/", " "]).searchQuery),
           List.Sublist (toLowerL t)
             (toLowerL ((resAt (runKeys c7plan ["/", " "]) 0).address ++
               (resAt (runKeys c7plan ["/", " "]) 0).rtype ++
               (resAt (runKeys c7plan ["/", " "]) 0).rname)))) := by
  decide

/-- C7 amended: for an active query, a position of the filtered-and-sorted
list is a search match iff the query has at least one whitespace-separated
term and every term is a case-insensitive subsequence of the concatenation
of the resource's address, type and name; whitespace-only queries match
nothing.  The claim's concrete examples hold as stated. -/
theorem claim_C7_amended :
    (∀ (m : TuiModel) (i : Nat), m.searchQuery ≠ [] →
      (i ∈ (performSearch m).searchMatches ↔
        i < (sortedResources m).length ∧
        fieldsL (toLowerL m.searchQuery) ≠ [] ∧
        ∀ t ∈ fieldsL (toLowerL m.searchQuery),
          List.Sublist (toLowerL t)
            (toLowerL
              ((resAt m (((sortedResources m).get? i).getD 0)).address ++
               (resAt m (((sortedResources m).get? i).getD 0)).rtype ++
               (resAt m (((sortedResources m).get? i).getD 0)).rname)))) ∧
    fuzzyMatch (strL "aws_lambda_function.example") (strL "lmbda") = true ∧
    fuzzyMatch (strL "aws_lambda_function.example") (strL "xyz") = false ∧
    (∀ text : List Char, fuzzyMatch text [] = true) := by
  refine ⟨?_, by decide, by decide, ?_⟩
  · intro m i hq
    rw [performSearch_matches]
    unfold computeMatches matchesF
    simp only [sortedResources, resAt]
    rw [if_neg hq]
    by_cases ht : fieldsL (toLowerL m.searchQuery) = []
    · simp [ht]
    · simp only [ht, Bool.false_eq_true, if_false, List.mem_filter,
        List.mem_range, List.all_eq_true]
      constructor
      · rintro ⟨h1, h2⟩
        refine ⟨h1, ht, ?_⟩
        intro t htm
        exact (fuzzy_term_iff _ t
          (fields_no_space (toLowerL m.searchQuery) t htm)).mp (h2 t htm)
      · rintro ⟨h1, _, h2⟩
        refine ⟨h1, ?_⟩
        intro t htm
        exact (fuzzy_term_iff _ t
          (fields_no_space (toLowerL m.searchQuery) t htm)).mpr (h2 t htm)
  · intro text
    unfold fuzzyMatch
    exact subseqGreedy_nil _

/-- Witness for C7 amended: a state with the query lmbda over the lambda
resource; position 0 is a match. -/
theorem claim_C7_witness :
    0 ∈ (performSearch
      { initModel c7plan with searchQuery := strL "lmbda" }).searchMatches :=
  (claim_C7_amended.1 { initModel c7plan with searchQuery := strL "lmbda" } 0
    (by decide)).mpr (by decide)

/-! ### Claim C4: cursor bounds against the displayed list -/

def c4plan : List Resource :=
  [⟨strL "x.foo1", strL "x", strL "foo1", Action.create⟩,
   ⟨strL "x.foo2", strL "x", strL "foo2", Action.create⟩,
   ⟨strL "y.bar1", strL "y", strL "bar1", Action.update⟩,
   ⟨strL "y.bar2", strL "y", strL "bar2", Action.update⟩,
   ⟨strL "y.bar3", strL "y", strL "bar3", Action.update⟩]

def c4keys : List String :=
  ["/", "f", "o", "o", "enter", "n", "f", "down", "down", " ", "enter"]

def c4plan2 : List Resource :=
  [⟨strL "u.1", strL "u", strL "1", Action.update⟩,
   ⟨strL "u.2", strL "u", strL "2", Action.update⟩]

/-- C4 fails on the code: searching for foo, moving to the second match and
then filtering the plan down to the update resources leaves the viewer with
an empty displayed list and cursor 1 — clampCursorAndRefreshSearch clamps
against the stale displayed list before re-running the search, so the
zero-match state keeps the old cursor.  A filter toggle inside the open
picker (second trace) also leaves cursor 1 against an empty list, since
toggles do not clamp at all. -/
theorem claim_C4_counterexample :
    ((runKeys c4plan c4keys).filtering = false ∧
     displayedResourceIndices (runKeys c4plan c4keys) = [] ∧
     (runKeys c4plan c4keys).cursor = 1) ∧
    (displayedResourceIndices (runKeys c4plan2 ["j", "f", " "]) = [] ∧
     (runKeys c4plan2 ["j", "f", " "]).cursor = 1) := by decide

/-- The cursor-bounds property claimed by C4, for one state. -/
def cursorOk (m : TuiModel) : Prop :=
  (displayedResourceIndices m ≠ [] →
    m.cursor < ((displayedResourceIndices m).length : Int)) ∧
  (displayedResourceIndices m = [] → m.cursor = 0)

/-- The inductive invariant of the key-event loop: the cursor and the
current-match index stay nonnegative, the cursor stays below the plan size,
the match list never outgrows the plan, an empty query has no matches, the
current match is bounded by the displayed list while a query is active
outside the filter picker, and the full cursor bound holds outside the
filter picker whenever no query is active or the query has matches. -/
def StateInv (m : TuiModel) : Prop :=
  0 ≤ m.cursor ∧
  0 ≤ m.currentMatch ∧
  m.cursor < max 1 (m.plan.length : Int) ∧
  m.searchMatches.length ≤ m.plan.length ∧
  (m.searchQuery = [] → m.searchMatches = []) ∧
  (m.filtering = false → m.searchQuery ≠ [] →
    m.currentMatch < max 1 ((displayedResourceIndices m).length : Int)) ∧
  (m.filtering = false → (m.searchQuery = [] ∨ m.searchMatches ≠ []) →
    cursorOk m)

theorem insertSorted_length (less : Nat → Nat → Bool) (x : Nat)
    (l : List Nat) : (insertSorted less x l).length = l.length + 1 := by
  induction l with
  | nil => rfl
  | cons y r ih =>
    unfold insertSorted
    split
    · simp
    · simp [ih]

theorem sortByLess_length (less : Nat → Nat → Bool) (l : List Nat) :
    (sortByLess less l).length = l.length := by
  induction l with
  | nil => rfl
  | cons y r ih =>
    simp only [sortByLess, List.foldr_cons] at *
    rw [insertSorted_length, ih, List.length_cons]

theorem filteredF_length (p : List Resource)
    (f : Option (List (Action × Bool))) : (filteredF p f).length ≤ p.length := by
  unfold filteredF
  split
  · simp
  · exact le_trans (List.length_filter_le _ _) (by simp)

theorem sortedF_length (p : List Resource) (f : Option (List (Action × Bool)))
    (o : SortOrder) : (sortedF p f o).length ≤ p.length := by
  unfold sortedF
  dsimp only
  split
  · exact filteredF_length p f
  · rw [sortByLess_length]; exact filteredF_length p f

theorem sortedF_length_full (p : List Resource)
    (f : Option (List (Action × Bool))) (o : SortOrder)
    (h : mapLen f = 0) : (sortedF p f o).length = p.length := by
  have hf : (filteredF p f).length = p.length := by
    unfold filteredF; rw [if_pos h]; simp
  unfold sortedF
  dsimp only
  split
  · exact hf
  · rw [sortByLess_length]; exact hf

theorem matchesF_length (p : List Resource) (f : Option (List (Action × Bool)))
    (o : SortOrder) (q : List Char) : (matchesF p f o q).length ≤ p.length := by
  unfold matchesF
  dsimp only
  split
  · simp
  · split
    · simp
    · exact le_trans (List.length_filter_le _ _)
        (by simpa using sortedF_length p f o)

theorem matchesF_nil (p : List Resource) (f : Option (List (Action × Bool)))
    (o : SortOrder) : matchesF p f o [] = [] := by
  simp [matchesF]

theorem displayedF_length (p : List Resource)
    (f : Option (List (Action × Bool))) (o : SortOrder) (q : List Char)
    (sm : List Nat) (h : sm.length ≤ p.length) :
    (displayedF p f o q sm).length ≤ p.length := by
  unfold displayedF
  dsimp only
  split
  · exact sortedF_length p f o
  · split
    · simp
    · exact le_trans (List.length_filterMap_le _ _) h

theorem displayed_len_le (m : TuiModel)
    (h : m.searchMatches.length ≤ m.plan.length) :
    (displayedResourceIndices m).length ≤ m.plan.length :=
  displayedF_length _ _ _ _ _ h

theorem cursorOk_of_zero (m : TuiModel) (h : m.cursor = 0) : cursorOk m := by
  constructor
  · intro hne
    rw [h]
    exact_mod_cast List.length_pos.mpr hne
  · intro _
    exact h

theorem StateInv_congr (a b : TuiModel)
    (hp : b.plan = a.plan) (hc : b.cursor = a.cursor)
    (hm : b.currentMatch = a.currentMatch)
    (hsm : b.searchMatches = a.searchMatches)
    (hq : b.searchQuery = a.searchQuery)
    (hfl : b.statusFilters = a.statusFilters)
    (hso : b.sortOrder = a.sortOrder)
    (hfil : b.filtering = a.filtering)
    (h : StateInv a) : StateInv b := by
  have hd : displayedResourceIndices b = displayedResourceIndices a := by
    unfold displayedResourceIndices
    rw [hp, hq, hfl, hso, hsm]
  unfold StateInv cursorOk at h ⊢
  rw [hd, hp, hc, hm, hsm, hq, hfil]
  exact h

theorem StateInv_filter_frame (a b : TuiModel)
    (hp : b.plan = a.plan) (hc : b.cursor = a.cursor)
    (hm : b.currentMatch = a.currentMatch)
    (hsm : b.searchMatches = a.searchMatches)
    (hq : b.searchQuery = a.searchQuery)
    (hfil : b.filtering = true)
    (h : StateInv a) : StateInv b := by
  obtain ⟨i1, i2, i3, i5, i6, _, _⟩ := h
  refine ⟨?_, ?_, ?_, ?_, ?_, ?_, ?_⟩
  · rw [hc]; exact i1
  · rw [hm]; exact i2
  · rw [hc, hp]; exact i3
  · rw [hsm, hp]; exact i5
  · rw [hq, hsm]; exact i6
  · intro hf; rw [hfil] at hf; exact Bool.noConfusion hf
  · intro hf; rw [hfil] at hf; exact Bool.noConfusion hf

theorem StateInv_cursor_mod (m : TuiModel) (c : Int) (h : StateInv m)
    (hc1 : 0 ≤ c) (hc3 : c < max 1 (m.plan.length : Int))
    (hok : m.filtering = false → (m.searchQuery = [] ∨ m.searchMatches ≠ []) →
      ((displayedResourceIndices m ≠ [] →
         c < ((displayedResourceIndices m).length : Int)) ∧
       (displayedResourceIndices m = [] → c = 0))) :
    StateInv { m with cursor := c } := by
  obtain ⟨_, i2, _, i5, i6, i7, _⟩ := h
  exact ⟨hc1, i2, hc3, i5, i6, i7, hok⟩

theorem StateInv_cursor_match_mod (m : TuiModel) (c : Int) (h : StateInv m)
    (hc1 : 0 ≤ c) (hc3 : c < max 1 (m.plan.length : Int))
    (hcm : m.filtering = false → m.searchQuery ≠ [] →
      c < max 1 ((displayedResourceIndices m).length : Int))
    (hok : m.filtering = false → (m.searchQuery = [] ∨ m.searchMatches ≠ []) →
      ((displayedResourceIndices m ≠ [] →
         c < ((displayedResourceIndices m).length : Int)) ∧
       (displayedResourceIndices m = [] → c = 0))) :
    StateInv { m with currentMatch := c, cursor := c } := by
  obtain ⟨_, _, _, i5, i6, _, _⟩ := h
  exact ⟨hc1, hc1, hc3, i5, i6, hcm, hok⟩

theorem performSearch_spec (m : TuiModel) :
    (performSearch m).plan = m.plan ∧
    (performSearch m).statusFilters = m.statusFilters ∧
    (performSearch m).sortOrder = m.sortOrder ∧
    (performSearch m).searchQuery = m.searchQuery ∧
    (performSearch m).filtering = m.filtering ∧
    (performSearch m).searching = m.searching ∧
    (performSearch m).searchMatches = computeMatches m ∧
    (performSearch m).currentMatch = 0 ∧
    ((performSearch m).cursor = m.cursor ∨ (performSearch m).cursor = 0) ∧
    (computeMatches m ≠ [] → (performSearch m).cursor = 0) := by
  unfold performSearch
  dsimp only
  by_cases hq : m.searchQuery = []
  · rw [if_pos hq]
    refine ⟨rfl, rfl, rfl, rfl, rfl, rfl, ?_, rfl, Or.inl rfl, ?_⟩
    · simp [computeMatches, matchesF, hq]
    · intro hne; exact absurd (by simp [computeMatches, matchesF, hq]) hne
  · rw [if_neg hq]
    by_cases ht : fieldsL (toLowerL m.searchQuery) = []
    · rw [if_pos ht]
      refine ⟨rfl, rfl, rfl, rfl, rfl, rfl, ?_, rfl, Or.inl rfl, ?_⟩
      · simp [computeMatches, matchesF, hq, ht]
      · intro hne; exact absurd (by simp [computeMatches, matchesF, hq, ht]) hne
    · rw [if_neg ht]
      have hcm : computeMatches
          { m with searchMatches := ([] : List Nat), currentMatch := 0 }
          = computeMatches m := rfl
      rw [hcm]
      by_cases hms : computeMatches m ≠ []
      · rw [if_pos hms]
        exact ⟨rfl, rfl, rfl, rfl, rfl, rfl, rfl, rfl, Or.inr rfl, fun _ => rfl⟩
      · rw [if_neg hms]
        exact ⟨rfl, rfl, rfl, rfl, rfl, rfl, rfl, rfl, Or.inl rfl,
          fun hne => absurd hne hms⟩

theorem StateInv_psearch_aux (m : TuiModel)
    (h1 : 0 ≤ m.cursor) (h3 : m.cursor < max 1 (m.plan.length : Int))
    (hf : m.filtering = false) (hq : m.searchQuery ≠ []) :
    StateInv (performSearch m) := by
  obtain ⟨hp, hfl, hso, hq2, hfil2, hsrch, hsm, hcm, hcur, hcur0⟩ :=
    performSearch_spec m
  refine ⟨?_, ?_, ?_, ?_, ?_, ?_, ?_⟩
  · rcases hcur with hc | hc <;> rw [hc]
    exact h1
  · exact hcm.ge
  · rw [hp]
    rcases hcur with hc | hc <;> rw [hc]
    · exact h3
    · omega
  · rw [hsm, hp]
    exact matchesF_length _ _ _ _
  · intro hq0
    rw [hq2] at hq0
    exact absurd hq0 hq
  · intro _ _
    rw [hcm]
    omega
  · intro _ hcond
    rcases hcond with hq0 | hsmne
    · rw [hq2] at hq0
      exact absurd hq0 hq
    · rw [hsm] at hsmne
      exact cursorOk_of_zero _ (hcur0 hsmne)

theorem clamp_inv (m : TuiModel)
    (h1 : 0 ≤ m.cursor) (h2 : 0 ≤ m.currentMatch)
    (h3 : m.cursor < max 1 (m.plan.length : Int))
    (h5 : m.searchMatches.length ≤ m.plan.length)
    (h6 : m.searchQuery = [] → m.searchMatches = [])
    (hf : m.filtering = false) :
    StateInv (clampCursorAndRefreshSearch m) := by
  have hDn : (displayedResourceIndices m).length ≤ m.plan.length :=
    displayed_len_le m h5
  unfold clampCursorAndRefreshSearch
  dsimp only
  by_cases hge : m.cursor ≥ ((displayedResourceIndices m).length : Int)
  · rw [if_pos hge]
    by_cases hL : (displayedResourceIndices m).length > 0
    · rw [if_pos hL]
      by_cases hq : m.searchQuery = []
      · rw [if_neg (not_not_intro hq)]
        refine ⟨?_, h2, ?_, h5, fun _ => h6 hq, ?_, ?_⟩
        · show 0 ≤ ((displayedResourceIndices m).length : Int) - 1
          omega
        · show ((displayedResourceIndices m).length : Int) - 1 <
            max 1 (m.plan.length : Int)
          omega
        · intro _ hqne
          exact absurd hq hqne
        · intro _ _
          constructor
          · intro _
            show ((displayedResourceIndices m).length : Int) - 1 <
              ((displayedResourceIndices m).length : Int)
            omega
          · intro hE
            have hE2 : displayedResourceIndices m = [] := hE
            rw [hE2] at hL
            simp at hL
      · rw [if_pos hq]
        refine StateInv_psearch_aux _ ?_ ?_ ?_ ?_
        · show 0 ≤ ((displayedResourceIndices m).length : Int) - 1
          omega
        · show ((displayedResourceIndices m).length : Int) - 1 <
            max 1 (m.plan.length : Int)
          omega
        · exact hf
        · exact hq
    · rw [if_neg hL]
      by_cases hq : m.searchQuery = []
      · rw [if_neg (not_not_intro hq)]
        refine ⟨le_refl 0, h2, ?_, h5, fun _ => h6 hq, ?_, ?_⟩
        · show (0 : Int) < max 1 (m.plan.length : Int)
          omega
        · intro _ hqne
          exact absurd hq hqne
        · intro _ _
          exact cursorOk_of_zero _ rfl
      · rw [if_pos hq]
        refine StateInv_psearch_aux _ (le_refl 0) ?_ ?_ ?_
        · show (0 : Int) < max 1 (m.plan.length : Int)
          omega
        · exact hf
        · exact hq
  · rw [if_neg hge]
    push_neg at hge
    by_cases hq : m.searchQuery = []
    · rw [if_neg (not_not_intro hq)]
      refine ⟨h1, h2, h3, h5, fun _ => h6 hq, fun _ hqne => absurd hq hqne, ?_⟩
      intro _ _
      constructor
      · intro _
        exact hge
      · intro hE
        rw [hE] at hge
        simp at hge
        omega
    · rw [if_pos hq]
      exact StateInv_psearch_aux m h1 h3 hf hq

theorem clamp_psearch_inv (m : TuiModel)
    (h1 : 0 ≤ m.cursor) (h3 : m.cursor < max 1 (m.plan.length : Int))
    (hf : m.filtering = false) :
    StateInv (clampCursorAndRefreshSearch (performSearch m)) := by
  obtain ⟨hp, hfl, hso, hq2, hfil2, hsrch, hsm, hcm, hcur, hcur0⟩ :=
    performSearch_spec m
  apply clamp_inv
  · rcases hcur with hc | hc <;> rw [hc]
    exact h1
  · exact hcm.ge
  · rw [hp]
    rcases hcur with hc | hc <;> rw [hc]
    · exact h3
    · omega
  · rw [hsm, hp]
    exact matchesF_length _ _ _ _
  · intro hq0
    rw [hq2] at hq0
    rw [hsm]
    show matchesF m.plan m.statusFilters m.sortOrder m.searchQuery = []
    rw [hq0]
    exact matchesF_nil _ _ _
  · rw [hfil2]
    exact hf

theorem StateInv_up (m : TuiModel) (h : StateInv m) :
    StateInv (handleKeyUp m) := by
  unfold handleKeyUp
  split
  case isTrue hgt =>
    apply StateInv_cursor_mod m _ h
    · omega
    · have := h.2.2.1
      omega
    · intro ha hb
      have hok := h.2.2.2.2.2.2 ha hb
      unfold cursorOk at hok
      constructor
      · intro hne
        have := hok.1 hne
        omega
      · intro hE
        have := hok.2 hE
        omega
  case isFalse =>
    exact StateInv_congr m _ rfl rfl rfl rfl rfl rfl rfl rfl h

theorem StateInv_down (m : TuiModel) (h : StateInv m) :
    StateInv (handleKeyDown m) := by
  unfold handleKeyDown
  dsimp only
  split
  case isTrue hlt =>
    have hlen := displayed_len_le m h.2.2.2.1
    apply StateInv_cursor_mod m _ h
    · have := h.1
      omega
    · omega
    · intro _ _
      constructor
      · intro _
        omega
      · intro hE
        rw [hE] at hlt
        simp at hlt
        have := h.1
        omega
  case isFalse =>
    exact StateInv_congr m _ rfl rfl rfl rfl rfl rfl rfl rfl h

theorem StateInv_enterKey (m : TuiModel) (h : StateInv m) :
    StateInv (handleKeyEnter m) := by
  unfold handleKeyEnter
  dsimp only
  split
  · exact StateInv_congr m _ rfl rfl rfl rfl rfl rfl rfl rfl h
  · exact h

theorem StateInv_collapseCur (m : TuiModel) (h : StateInv m) :
    StateInv (handleKeyCollapseCurrent m) := by
  unfold handleKeyCollapseCurrent
  dsimp only
  split
  · exact StateInv_congr m _ rfl rfl rfl rfl rfl rfl rfl rfl h
  · exact h

theorem StateInv_expandCur (m : TuiModel) (h : StateInv m) :
    StateInv (handleKeyExpandCurrent m) := by
  unfold handleKeyExpandCurrent
  dsimp only
  split
  · exact StateInv_congr m _ rfl rfl rfl rfl rfl rfl rfl rfl h
  · exact h

theorem StateInv_expandAll (m : TuiModel) (h : StateInv m) :
    StateInv (expandAll m) := by
  unfold expandAll
  exact StateInv_congr m _ rfl rfl rfl rfl rfl rfl rfl rfl h

theorem StateInv_collapseAll (m : TuiModel) (h : StateInv m) :
    StateInv (collapseAll m) := by
  unfold collapseAll
  exact StateInv_congr m _ rfl rfl rfl rfl rfl rfl rfl rfl h

theorem StateInv_filterKey (m : TuiModel) (h : StateInv m) :
    StateInv (handleKeyFilter m) := by
  unfold handleKeyFilter
  exact StateInv_filter_frame m _ rfl rfl rfl rfl rfl rfl h

theorem StateInv_sortKey (m : TuiModel) (h : StateInv m) :
    StateInv (handleKeySort m) := by
  unfold handleKeySort
  exact StateInv_congr m _ rfl rfl rfl rfl rfl rfl rfl rfl h

theorem StateInv_searchKey (m : TuiModel) (h : StateInv m) :
    StateInv (handleKeySearch m) := by
  unfold handleKeySearch
  exact StateInv_congr m _ rfl rfl rfl rfl rfl rfl rfl rfl h

theorem StateInv_scrollDown (m : TuiModel) (h : StateInv m) :
    StateInv (scrollHalfPageDown m) := by
  unfold scrollHalfPageDown
  exact StateInv_congr m _ rfl rfl rfl rfl rfl rfl rfl rfl h

theorem StateInv_scrollUp (m : TuiModel) (h : StateInv m) :
    StateInv (scrollHalfPageUp m) := by
  unfold scrollHalfPageUp
  exact StateInv_congr m _ rfl rfl rfl rfl rfl rfl rfl rfl h

theorem StateInv_pgUp (m : TuiModel) (h : StateInv m) :
    StateInv (handleKeyPgUp m) := by
  unfold handleKeyPgUp
  exact StateInv_congr m _ rfl rfl rfl rfl rfl rfl rfl rfl h

theorem StateInv_pgDown (m : TuiModel) (h : StateInv m) :
    StateInv (handleKeyPgDown m) := by
  unfold handleKeyPgDown
  exact StateInv_congr m _ rfl rfl rfl rfl rfl rfl rfl rfl h

theorem StateInv_apply (m : TuiModel) (h : StateInv m) :
    StateInv (handleKeyApply m) := by
  unfold handleKeyApply
  split
  · split
    · exact StateInv_congr m _ rfl rfl rfl rfl rfl rfl rfl rfl h
    · exact StateInv_congr m _ rfl rfl rfl rfl rfl rfl rfl rfl h
  · exact h

theorem StateInv_confirm (m : TuiModel) (h : StateInv m) :
    StateInv (handleKeyConfirmApply m) := by
  unfold handleKeyConfirmApply
  split
  · exact StateInv_congr m _ rfl rfl rfl rfl rfl rfl rfl rfl h
  · exact h

theorem StateInv_gKey (m : TuiModel) (h : StateInv m) :
    StateInv (handleGKey m) := by
  unfold handleGKey
  split
  · refine StateInv_congr ({ m with cursor := 0 }) _ rfl rfl rfl rfl rfl rfl rfl rfl ?_
    apply StateInv_cursor_mod m 0 h (le_refl 0)
    · omega
    · intro _ _
      constructor
      · intro hne
        exact_mod_cast List.length_pos.mpr hne
      · intro _
        rfl
  · exact StateInv_congr m _ rfl rfl rfl rfl rfl rfl rfl rfl h

theorem StateInv_gotoBottom (m : TuiModel) (h : StateInv m) :
    StateInv (gotoBottom m) := by
  unfold gotoBottom
  dsimp only
  by_cases hL : (displayedResourceIndices m).length > 0
  · rw [if_pos hL]
    refine StateInv_congr
      ({ m with cursor := ((displayedResourceIndices m).length : Int) - 1 }) _
      rfl rfl rfl rfl rfl rfl rfl rfl ?_
    apply StateInv_cursor_mod m _ h
    · omega
    · have hlen := displayed_len_le m h.2.2.2.1
      omega
    · intro _ _
      constructor
      · intro _
        omega
      · intro hE
        rw [hE] at hL
        simp at hL
  · rw [if_neg hL]
    exact StateInv_congr m _ rfl rfl rfl rfl rfl rfl rfl rfl h

theorem StateInv_next (m : TuiModel) (hfil : m.filtering = false)
    (h : StateInv m) : StateInv (nextMatch m) := by
  unfold nextMatch
  dsimp only
  split
  case isTrue => exact h
  case isFalse hguard =>
    push_neg at hguard
    obtain ⟨hq, hsm⟩ := hguard
    split
    case isTrue hL =>
      have hlen := displayed_len_le m h.2.2.2.1
      have htm1 : 0 ≤ (m.currentMatch + 1).tmod
          ((displayedResourceIndices m).length : Int) := by
        apply Int.tmod_nonneg
        have := h.2.1
        omega
      have htm2 : (m.currentMatch + 1).tmod
          ((displayedResourceIndices m).length : Int) <
          ((displayedResourceIndices m).length : Int) := by
        apply Int.tmod_lt_of_pos
        exact_mod_cast hL
      apply StateInv_cursor_match_mod m _ h htm1
      · omega
      · intro _ _
        omega
      · intro _ _
        constructor
        · intro _
          exact htm2
        · intro hE
          rw [hE] at hL
          simp at hL
    case isFalse => exact h

theorem StateInv_prev (m : TuiModel) (hfil : m.filtering = false)
    (h : StateInv m) : StateInv (prevMatch m) := by
  unfold prevMatch
  dsimp only
  split
  case isTrue => exact h
  case isFalse hguard =>
    push_neg at hguard
    obtain ⟨hq, hsm⟩ := hguard
    split
    case isTrue hL =>
      have hlen := displayed_len_le m h.2.2.2.1
      have h7 := h.2.2.2.2.2.1 hfil hq
      by_cases hneg : m.currentMatch - 1 < 0
      · rw [if_pos hneg]
        apply StateInv_cursor_match_mod m _ h
        · omega
        · omega
        · intro _ _
          omega
        · intro _ _
          constructor
          · intro _
            omega
          · intro hE
            rw [hE] at hL
            simp at hL
      · rw [if_neg hneg]
        apply StateInv_cursor_match_mod m _ h
        · omega
        · omega
        · intro _ _
          omega
        · intro _ _
          constructor
          · intro _
            omega
          · intro hE
            rw [hE] at hL
            simp at hL
    case isFalse => exact h

theorem StateInv_escKey (m : TuiModel) (hfil : m.filtering = false)
    (h : StateInv m) : StateInv (handleKeyEsc m) := by
  obtain ⟨i1, i2, i3, i5, i6, i7, i8⟩ := h
  unfold handleKeyEsc
  split
  case isTrue hgt =>
    exact clamp_inv _ i1 i2 i3 i5 i6 hfil
  case isFalse hle =>
    have hmap : mapLen m.statusFilters = 0 := by omega
    have hlen : (displayedResourceIndices (clearSearch m)).length
        = m.plan.length := by
      show (displayedF m.plan m.statusFilters m.sortOrder [] []).length
        = m.plan.length
      unfold displayedF
      dsimp only
      rw [if_pos rfl]
      exact sortedF_length_full _ _ _ hmap
    refine ⟨i1, i2, i3, ?_, fun _ => rfl, ?_, ?_⟩
    · show ([] : List Nat).length ≤ m.plan.length
      simp
    · intro _ hqne
      exact absurd rfl hqne
    · intro _ _
      constructor
      · intro hne
        have hp : 0 < (displayedResourceIndices (clearSearch m)).length :=
          List.length_pos.mpr hne
        rw [hlen] at hp
        show m.cursor < ((displayedResourceIndices (clearSearch m)).length : Int)
        rw [hlen]
        omega
      · intro hE
        have h0 : (displayedResourceIndices (clearSearch m)).length = 0 := by
          rw [hE]
          rfl
        rw [hlen] at h0
        show m.cursor = 0
        omega

theorem StateInv_filterStep (m : TuiModel) (k : String)
    (hfil : m.filtering = true) (h : StateInv m) :
    StateInv (filterStep m k) := by
  unfold filterStep
  split
  · exact clamp_inv _ h.1 h.2.1 h.2.2.1 h.2.2.2.1 h.2.2.2.2.1 rfl
  · exact clamp_inv _ h.1 h.2.1 h.2.2.1 h.2.2.2.1 h.2.2.2.2.1 rfl
  · split
    · exact StateInv_filter_frame m _ rfl rfl rfl rfl rfl hfil h
    · exact h
  · split
    · exact StateInv_filter_frame m _ rfl rfl rfl rfl rfl hfil h
    · exact h
  · split
    · exact StateInv_filter_frame m _ rfl rfl rfl rfl rfl hfil h
    · exact h
  · split
    · exact StateInv_filter_frame m _ rfl rfl rfl rfl rfl hfil h
    · exact h
  · exact StateInv_filter_frame m _ rfl rfl rfl rfl rfl hfil h
  · exact StateInv_filter_frame m _ rfl rfl rfl rfl rfl hfil h
  · exact StateInv_filter_frame m _ rfl rfl rfl rfl rfl hfil h
  · exact h

theorem StateInv_sortStep (m : TuiModel) (k : String)
    (hfil : m.filtering = false) (h : StateInv m) :
    StateInv (sortStep m k) := by
  unfold sortStep
  split
  · exact StateInv_congr m _ rfl rfl rfl rfl rfl rfl rfl rfl h
  · exact clamp_inv _ h.1 h.2.1 h.2.2.1 h.2.2.2.1 h.2.2.2.2.1 hfil
  · exact clamp_inv _ h.1 h.2.1 h.2.2.1 h.2.2.2.1 h.2.2.2.2.1 hfil
  · split
    · exact StateInv_congr m _ rfl rfl rfl rfl rfl rfl rfl rfl h
    · exact h
  · split
    · exact StateInv_congr m _ rfl rfl rfl rfl rfl rfl rfl rfl h
    · exact h
  · split
    · exact StateInv_congr m _ rfl rfl rfl rfl rfl rfl rfl rfl h
    · exact h
  · split
    · exact StateInv_congr m _ rfl rfl rfl rfl rfl rfl rfl rfl h
    · exact h
  · exact h

theorem StateInv_searchStep (m : TuiModel) (k : String)
    (hfil : m.filtering = false) (h : StateInv m) :
    StateInv (searchStep m k) := by
  unfold searchStep
  split
  · exact clamp_psearch_inv _ h.1 h.2.2.1 hfil
  · exact clamp_inv _ h.1 h.2.1 h.2.2.1 (by simp) (fun _ => rfl) hfil
  · exact StateInv_up m h
  · exact StateInv_down m h
  · exact clamp_psearch_inv _ h.1 h.2.2.1 hfil

theorem StateInv_normalStep (m : TuiModel) (k : String)
    (hfil : m.filtering = false) (h : StateInv m) :
    StateInv (normalStep m k) := by
  unfold normalStep
  dsimp only
  have h1 : StateInv (if k ≠ "g" ∧ k ≠ "G" then { m with pendingG := false } else m) := by
    split
    · exact StateInv_congr m _ rfl rfl rfl rfl rfl rfl rfl rfl h
    · exact h
  have hfil1 : (if k ≠ "g" ∧ k ≠ "G" then { m with pendingG := false } else m).filtering = false := by
    split <;> exact hfil
  generalize hg : (if k ≠ "g" ∧ k ≠ "G" then { m with pendingG := false } else m) = m1 at h1 hfil1 ⊢
  rcases hnh : normalHandler k with _ | f
  · dsimp only
    split
    · exact StateInv_congr m1 _ rfl rfl rfl rfl rfl rfl rfl rfl h1
    · exact h1
  · have hf2 : StateInv (f m1) := by
      rw [normalHandler.eq_def] at hnh
      split at hnh <;> cases hnh <;>
        first
               | exact h1
               | exact StateInv_up m1 h1
               | exact StateInv_down m1 h1
               | exact StateInv_enterKey m1 h1
               | exact StateInv_expandAll m1 h1
               | exact StateInv_collapseAll m1 h1
               | exact StateInv_filterKey m1 h1
               | exact StateInv_sortKey m1 h1
               | exact StateInv_searchKey m1 h1
               | exact StateInv_next m1 hfil1 h1
               | exact StateInv_prev m1 hfil1 h1
               | exact StateInv_escKey m1 hfil1 h1
               | exact StateInv_collapseCur m1 h1
               | exact StateInv_scrollDown m1 h1
               | exact StateInv_scrollUp m1 h1
               | exact StateInv_gKey m1 h1
               | exact StateInv_gotoBottom m1 h1
               | exact StateInv_pgUp m1 h1
               | exact StateInv_pgDown m1 h1
               | exact StateInv_expandCur m1 h1
               | exact StateInv_apply m1 h1
               | exact StateInv_confirm m1 h1
    dsimp only
    split
    · exact StateInv_congr (f m1) _ rfl rfl rfl rfl rfl rfl rfl rfl hf2
    · exact hf2

theorem StateInv_step (m : TuiModel) (k : String) (h : StateInv m) :
    StateInv (step m k) := by
  unfold step
  split
  case isTrue hfl => exact StateInv_filterStep m k hfl h
  case isFalse hfl =>
    have hfil : m.filtering = false := by
      revert hfl
      cases m.filtering <;> simp
    split
    case isTrue => exact StateInv_sortStep m k hfil h
    case isFalse =>
      split
      case isTrue => exact StateInv_searchStep m k hfil h
      case isFalse => exact StateInv_normalStep m k hfil h

theorem StateInv_init (plan : List Resource) : StateInv (initModel plan) := by
  refine ⟨le_refl 0, le_refl 0, ?_, ?_, fun _ => rfl, ?_, ?_⟩
  · show (0 : Int) < max 1 (plan.length : Int)
    omega
  · show ([] : List Nat).length ≤ plan.length
    simp
  · intro _ hqne
    exact absurd rfl hqne
  · intro _ _
    exact cursorOk_of_zero _ rfl

theorem StateInv_runKeys (plan : List Resource) (ks : List String) :
    StateInv (runKeys plan ks) := by
  unfold runKeys
  suffices hs : ∀ s : TuiModel, StateInv s → StateInv (ks.foldl step s) from
    hs _ (StateInv_init plan)
  induction ks with
  | nil => intro s hs; exact hs
  | cons k ks ih =>
    intro s hs
    exact ih _ (StateInv_step s k hs)

/-- C4 amended: from the initial viewer state, after any sequence of key
events the cursor is nonnegative, and whenever the filter picker is closed
and either no search query is active or the active query has at least one
match, the cursor is within the bounds of the freshly computed displayed
list: below its length when it is non-empty and zero when it is empty.
(The original claim fails mid-picker and for an active query with zero
matches; see the counterexample.) -/
theorem claim_C4_amended (plan : List Resource) (ks : List String) :
    0 ≤ (runKeys plan ks).cursor ∧
    ((runKeys plan ks).filtering = false →
      ((runKeys plan ks).searchQuery = [] ∨
        (runKeys plan ks).searchMatches ≠ []) →
      ((displayedResourceIndices (runKeys plan ks) ≠ [] →
         (runKeys plan ks).cursor <
           ((displayedResourceIndices (runKeys plan ks)).length : Int)) ∧
       (displayedResourceIndices (runKeys plan ks) = [] →
         (runKeys plan ks).cursor = 0))) := by
  obtain ⟨i1, _, _, _, _, _, i8⟩ := StateInv_runKeys plan ks
  exact ⟨i1, i8⟩

def c4wplan : List Resource := [⟨strL "x.a", strL "x", strL "a", Action.create⟩]

/-- Witness for C4 amended at a concrete plan and key trace. -/
theorem claim_C4_witness :
    0 ≤ (runKeys c4wplan ["j"]).cursor ∧
    ((runKeys c4wplan ["j"]).filtering = false →
      ((runKeys c4wplan ["j"]).searchQuery = [] ∨
        (runKeys c4wplan ["j"]).searchMatches ≠ []) →
      ((displayedResourceIndices (runKeys c4wplan ["j"]) ≠ [] →
         (runKeys c4wplan ["j"]).cursor <
           ((displayedResourceIndices (runKeys c4wplan ["j"])).length : Int)) ∧
       (displayedResourceIndices (runKeys c4wplan ["j"]) = [] →
         (runKeys c4wplan ["j"]).cursor = 0))) :=
  claim_C4_amended c4wplan ["j"]

end Terraprism
